import Mathlib

/-!
Verification of the A-Maze-ing maze generator, solver and display loop.

The Python sources are shallowly embedded:
* a grid is a `List (List Nat)` of 4-bit wall masks (row-major, `grid[y][x]`),
* coordinates are `Int × Int` pairs `(x, y)` so that the `nx = cx + dx`
  arithmetic (including the `0 <= nx < width` bound checks on possibly
  negative values) matches Python `int` arithmetic,
* the global `random` module state is an explicit `RandomState` value: an
  entropy tape `Nat → Nat` plus a position; `random.seed(s)` is modelled by
  replacing the state with `(seedTape s, 0)` for an arbitrary fixed
  `seedTape`, and `random.choice(l)` by indexing `l` with `tape pos % len l`,
* the unbounded `while` loops are written with an explicit fuel parameter;
  a separate lemma shows the supplied fuel is always sufficient, so the
  out-of-fuel branch is dead code.
-/

/-- A cell coordinate `(x, y)`, as Python integers. -/
abbrev Cell := Int × Int

/-- A maze grid: row-major list of rows of 4-bit wall masks. -/
abbrev Grid := List (List Nat)

/-- `(x, y)` is inside the `width × height` rectangle, exactly the
`0 <= x < width and 0 <= y < height` checks of the sources. -/
def InBox (w h : Nat) (c : Cell) : Prop :=
  0 ≤ c.1 ∧ c.1 < (w : Int) ∧ 0 ≤ c.2 ∧ c.2 < (h : Int)

instance (w h : Nat) (c : Cell) : Decidable (InBox w h c) := by
  unfold InBox; infer_instance

/-- The finite set of all in-bounds cells. -/
def boxFinset (w h : Nat) : Finset Cell :=
  (Finset.range w ×ˢ Finset.range h).image fun p => ((p.1 : Int), (p.2 : Int))

theorem mem_boxFinset {w h : Nat} {c : Cell} :
    c ∈ boxFinset w h ↔ InBox w h c := by
  constructor
  · intro hc
    rcases Finset.mem_image.mp hc with ⟨⟨a, b⟩, hp, rfl⟩
    rcases Finset.mem_product.mp hp with ⟨h1, h2⟩
    have ha : a < w := Finset.mem_range.mp h1
    have hb : b < h := Finset.mem_range.mp h2
    refine ⟨Int.natCast_nonneg _, ?_, Int.natCast_nonneg _, ?_⟩
    · show (a : Int) < (w : Int)
      exact_mod_cast ha
    · show (b : Int) < (h : Int)
      exact_mod_cast hb
  · rintro ⟨h1, h2, h3, h4⟩
    refine Finset.mem_image.mpr ⟨(c.1.toNat, c.2.toNat), ?_, ?_⟩
    · refine Finset.mem_product.mpr ⟨Finset.mem_range.mpr ?_, Finset.mem_range.mpr ?_⟩
      · omega
      · omega
    · have e1 : ((c.1.toNat : Int)) = c.1 := Int.toNat_of_nonneg h1
      have e2 : ((c.2.toNat : Int)) = c.2 := Int.toNat_of_nonneg h3
      simp [e1, e2]

theorem card_boxFinset (w h : Nat) : (boxFinset w h).card = w * h := by
  unfold boxFinset
  rw [Finset.card_image_of_injective]
  · simp [Finset.card_product]
  · intro a b hab
    have h1 : ((a.1 : Int)) = (b.1 : Int) := congrArg Prod.fst hab
    have h2 : ((a.2 : Int)) = (b.2 : Int) := congrArg Prod.snd hab
    have e1 : a.1 = b.1 := by exact_mod_cast h1
    have e2 : a.2 = b.2 := by exact_mod_cast h2
    exact Prod.ext_iff.mpr ⟨e1, e2⟩

/-- Reading `grid[y][x]`.  The sources only ever index in bounds; out of
bounds (including negative coordinates) we return the fully-walled mask 15,
which is also what `MazeData.get_walls` does explicitly. -/
def cellAt (g : Grid) (c : Cell) : Nat :=
  if 0 ≤ c.1 ∧ 0 ≤ c.2 then (g.getD c.2.toNat []).getD c.1.toNat 15 else 15

/-- Writing `grid[y][x] = v` (no-op out of bounds, as it is never executed
out of bounds in the sources). -/
def setCell (g : Grid) (c : Cell) (v : Nat) : Grid :=
  g.set c.2.toNat ((g.getD c.2.toNat []).set c.1.toNat v)

/-- The grid has `h` rows of `w` cells each. -/
def GridShape (g : Grid) (w h : Nat) : Prop :=
  g.length = h ∧ ∀ row ∈ g, row.length = w

theorem getD_replicate {α : Type} (a d : α) :
    ∀ (k n : Nat), (List.replicate k a).getD n d = if n < k then a else d := by
  intro k
  induction k with
  | zero => intro n; simp [List.replicate]
  | succ k ih =>
    intro n
    cases n with
    | zero => rw [List.replicate_succ, List.getD_cons_zero, if_pos (Nat.succ_pos k)]
    | succ n =>
      rw [List.replicate_succ, List.getD_cons_succ, ih n]
      simp [Nat.succ_lt_succ_iff]

/-- `[[15] * width] * height`: the fully-walled initial grid. -/
def initGrid (w h : Nat) : Grid := List.replicate h (List.replicate w 15)

theorem cellAt_initGrid (w h : Nat) (c : Cell) : cellAt (initGrid w h) c = 15 := by
  unfold cellAt initGrid
  split
  · rw [show (List.replicate h (List.replicate w 15)).getD c.2.toNat [] =
        if c.2.toNat < h then List.replicate w 15 else [] from getD_replicate _ _ _ _]
    split
    · rw [getD_replicate]; split <;> rfl
    · rfl
  · rfl

theorem gridShape_initGrid (w h : Nat) : GridShape (initGrid w h) w h := by
  constructor
  · simp [initGrid]
  · intro row hrow
    simp [initGrid] at hrow
    simp [hrow.2]

theorem gridShape_setCell {g : Grid} {w h : Nat} (hs : GridShape g w h)
    (c : Cell) (v : Nat) : GridShape (setCell g c v) w h := by
  obtain ⟨hl, hr⟩ := hs
  unfold setCell
  by_cases hy : c.2.toNat < g.length
  · refine ⟨by simp [hl], ?_⟩
    intro row hrow
    rcases List.mem_or_eq_of_mem_set hrow with hmem | rfl
    · exact hr _ hmem
    · rw [List.length_set, List.getD_eq_getElem _ _ hy]
      exact hr _ (List.getElem_mem hy)
  · rw [List.set_eq_of_length_le (by omega)]
    exact ⟨hl, hr⟩

theorem cellAt_out {g : Grid} {w h : Nat} (hs : GridShape g w h) {c : Cell}
    (hc : ¬ InBox w h c) : cellAt g c = 15 := by
  obtain ⟨hl, hr⟩ := hs
  unfold cellAt
  split
  · rename_i hpos
    have hout : (w : Int) ≤ c.1 ∨ (h : Int) ≤ c.2 := by
      by_contra hcon
      push_neg at hcon
      exact hc ⟨hpos.1, hcon.1, hpos.2, hcon.2⟩
    by_cases hy : c.2.toNat < g.length
    · have hrow : g.getD c.2.toNat [] = g[c.2.toNat] := List.getD_eq_getElem _ _ hy
      have hrlen : g[c.2.toNat].length = w := hr _ (List.getElem_mem hy)
      rcases hout with hw | hh
      · have hge : g[c.2.toNat].length ≤ c.1.toNat := by omega
        rw [hrow, List.getD_eq_default _ _ hge]
      · omega
    · have hge : g.length ≤ c.2.toNat := by omega
      rw [List.getD_eq_default _ _ hge]
      rfl
  · rfl

theorem cellAt_setCell_same {g : Grid} {w h : Nat} (hs : GridShape g w h)
    {c : Cell} (hc : InBox w h c) (v : Nat) : cellAt (setCell g c v) c = v := by
  obtain ⟨h1, h2, h3, h4⟩ := hc
  obtain ⟨hl, hr⟩ := hs
  have hy : c.2.toNat < g.length := by omega
  have hrow : g.getD c.2.toNat [] = g[c.2.toNat] := List.getD_eq_getElem _ _ hy
  have hrlen : g[c.2.toNat].length = w := hr _ (List.getElem_mem hy)
  unfold cellAt setCell
  rw [if_pos ⟨h1, h3⟩]
  have e1 : (g.set c.2.toNat ((g.getD c.2.toNat []).set c.1.toNat v)).getD c.2.toNat [] =
      (g.getD c.2.toNat []).set c.1.toNat v := by
    have hy' : c.2.toNat < (g.set c.2.toNat ((g.getD c.2.toNat []).set c.1.toNat v)).length := by
      simpa using hy
    rw [List.getD_eq_getElem _ _ hy']
    exact List.getElem_set_self _
  rw [e1]
  have hx' : c.1.toNat < ((g.getD c.2.toNat []).set c.1.toNat v).length := by
    rw [List.length_set, hrow, hrlen]
    omega
  rw [List.getD_eq_getElem _ _ hx']
  exact List.getElem_set_self _

theorem cellAt_setCell_other {g : Grid} {w h : Nat} (hs : GridShape g w h)
    {c : Cell} (hc : InBox w h c) (v : Nat) {c' : Cell} (hne : c' ≠ c) :
    cellAt (setCell g c v) c' = cellAt g c' := by
  obtain ⟨h1, h2, h3, h4⟩ := hc
  obtain ⟨hl, hr⟩ := hs
  have hy : c.2.toNat < g.length := by omega
  unfold cellAt setCell
  split
  · rename_i hpos
    by_cases hyeq : c'.2.toNat = c.2.toNat
    · have hy2 : c'.2 = c.2 := by omega
      have hxnat : c'.1.toNat ≠ c.1.toNat := by
        intro hx
        apply hne
        have e1 : c'.1 = c.1 := by omega
        exact Prod.ext_iff.mpr ⟨e1, hy2⟩
      have e1 : (g.set c.2.toNat ((g.getD c.2.toNat []).set c.1.toNat v)).getD c'.2.toNat [] =
          (g.getD c.2.toNat []).set c.1.toNat v := by
        have hy' : c.2.toNat < (g.set c.2.toNat ((g.getD c.2.toNat []).set c.1.toNat v)).length := by
          simpa using hy
        rw [hyeq, List.getD_eq_getElem _ _ hy']
        exact List.getElem_set_self _
      rw [e1, hyeq]
      have hne1 : c.1.toNat ≠ c'.1.toNat := by omega
      simp only [List.getD_eq_getElem?_getD, List.getElem?_set_ne hne1]
    · have hne2 : c.2.toNat ≠ c'.2.toNat := by omega
      simp only [List.getD_eq_getElem?_getD, List.getElem?_set_ne hne2]
  · rfl

/-! ### Bit manipulation

Python's `v & ~wall` on nonnegative `v` clears exactly the bits of `wall`;
for arbitrary naturals this equals `v ^^^ (v &&& wall)`, which we use as the
definition because `^^^` and `&&&` evaluate in the kernel. -/

/-- Python's `v & ~wall` (clear the bits of `wall` in `v`). -/
def clearWall (v wall : Nat) : Nat := v ^^^ (v &&& wall)

theorem testBit_clearWall (v wall i : Nat) :
    (clearWall v wall).testBit i = (v.testBit i && !(wall.testBit i)) := by
  unfold clearWall
  rw [Nat.testBit_xor, Nat.testBit_and]
  cases hv : v.testBit i <;> cases hw : wall.testBit i <;> rfl

theorem clearWall_and_self (v wall : Nat) : clearWall v wall &&& wall = 0 := by
  apply Nat.eq_of_testBit_eq
  intro i
  rw [Nat.testBit_and, testBit_clearWall, Nat.zero_testBit]
  cases hw : wall.testBit i <;> simp [hw]

theorem clearWall_and_other (v wall b : Nat) (hdis : wall &&& b = 0) :
    clearWall v wall &&& b = v &&& b := by
  apply Nat.eq_of_testBit_eq
  intro i
  have hd : (wall &&& b).testBit i = false := by rw [hdis]; exact Nat.zero_testBit i
  rw [Nat.testBit_and] at hd
  rw [Nat.testBit_and, testBit_clearWall, Nat.testBit_and]
  cases hw : wall.testBit i <;> cases hb : b.testBit i <;> simp_all

/-! ### `MazeData` and `Pathfinder` (src/src/solver/maze_data.py) -/

/-- The frozen dataclass holding the solver's read-only view of the maze. -/
structure MazeData where
  grid_result : Grid
  width : Nat
  height : Nat
  entry : Cell
  exitPt : Cell

/-- `MazeData.get_walls`: bounds-checked read, 15 (solid block) outside. -/
def MazeData.get_walls (m : MazeData) (x y : Int) : Nat :=
  if 0 ≤ x ∧ x < (m.width : Int) ∧ 0 ≤ y ∧ y < (m.height : Int) then
    (m.grid_result.getD y.toNat []).getD x.toNat 15
  else 15

/-- C10: `MazeData.get_walls` is total: on a well-shaped `MazeData` it
returns the stored mask `grid_result[y][x]` for in-bounds `(x, y)` and 15
for every out-of-bounds coordinate.  (It is a pure total function of the
embedding, so it raises nothing and modifies nothing.) -/
theorem get_walls_total (m : MazeData) (x y : Int)
    (hshape : m.grid_result.length = m.height ∧
      ∀ row ∈ m.grid_result, row.length = m.width) :
    ((0 ≤ x ∧ x < (m.width : Int) ∧ 0 ≤ y ∧ y < (m.height : Int)) →
      ∃ row, m.grid_result[y.toNat]? = some row ∧
        row[x.toNat]? = some (m.get_walls x y)) ∧
    (¬ (0 ≤ x ∧ x < (m.width : Int) ∧ 0 ≤ y ∧ y < (m.height : Int)) →
      m.get_walls x y = 15) := by
  obtain ⟨hl, hr⟩ := hshape
  constructor
  · rintro ⟨h1, h2, h3, h4⟩
    have hy : y.toNat < m.grid_result.length := by omega
    refine ⟨m.grid_result[y.toNat], by simp [List.getElem?_eq_getElem hy], ?_⟩
    have hrow : m.grid_result[y.toNat].length = m.width :=
      hr _ (List.getElem_mem hy)
    have hx : x.toNat < m.grid_result[y.toNat].length := by omega
    rw [List.getElem?_eq_getElem hx]
    unfold MazeData.get_walls
    rw [if_pos ⟨h1, h2, h3, h4⟩]
    rw [List.getD_eq_getElem _ _ hy, List.getD_eq_getElem _ _ hx]
  · intro hout
    unfold MazeData.get_walls
    rw [if_neg hout]

/-- Witness for C10 at a concrete `MazeData`, in bounds and out of bounds. -/
theorem get_walls_total_witness :
    (∃ row, ([[1, 2], [3, 4]] : Grid)[(1 : Int).toNat]? = some row ∧
      row[(0 : Int).toNat]? = some ((MazeData.mk [[1, 2], [3, 4]] 2 2 (0, 0) (1, 1)).get_walls 0 1)) ∧
    (MazeData.mk [[1, 2], [3, 4]] 2 2 (0, 0) (1, 1)).get_walls 5 0 = 15 := by
  have h := get_walls_total (MazeData.mk [[1, 2], [3, 4]] 2 2 (0, 0) (1, 1)) 0 1
    (by constructor
        · rfl
        · intro row hrow
          simp at hrow
          rcases hrow with rfl | rfl <;> rfl)
  have h' := get_walls_total (MazeData.mk [[1, 2], [3, 4]] 2 2 (0, 0) (1, 1)) 5 0
    (by constructor
        · rfl
        · intro row hrow
          simp at hrow
          rcases hrow with rfl | rfl <;> rfl)
  exact ⟨h.1 (by norm_num), h'.2 (by norm_num)⟩

/-! ### Hex output format (src/src/solver/hex_writer.py) -/

/-- `format(cell, "X")` for a 4-bit mask: one uppercase hex digit. -/
def hexChar (n : Nat) : Char := "0123456789ABCDEF".data.getD n '?'

/-- The grid block of `write_maze_file`: one line per row, one hex digit
per cell (`"".join(format(cell, "X") for cell in row)`). -/
def write_maze_lines (grid : Grid) : List String :=
  grid.map fun row => String.mk (row.map hexChar)

/-- Inverse of `hexChar` on single hex digits. -/
def hexVal (c : Char) : Nat :=
  match c with
  | '0' => 0 | '1' => 1 | '2' => 2 | '3' => 3
  | '4' => 4 | '5' => 5 | '6' => 6 | '7' => 7
  | '8' => 8 | '9' => 9 | 'A' => 10 | 'B' => 11
  | 'C' => 12 | 'D' => 13 | 'E' => 14 | 'F' => 15
  | _ => 0

/-- Modelled from the spec: the repository writes the hex-digit-per-cell
format in `write_maze_file` but contains no parser for it; per the spec's
round-trip property, parsing maps each line back to a row of cell masks,
one hex digit per cell, row-major. -/
def parse_maze_lines (lines : List String) : Grid :=
  lines.map fun s => s.data.map hexVal

theorem hexVal_hexChar : ∀ n ≤ 15, hexVal (hexChar n) = n := by decide

/-- C8: encoding a grid whose masks are all ≤ 15 to the hex text format and
re-parsing it reconstructs the grid. -/
theorem maze_lines_roundtrip (g : Grid) (hmask : ∀ row ∈ g, ∀ c ∈ row, c ≤ 15) :
    parse_maze_lines (write_maze_lines g) = g := by
  unfold parse_maze_lines write_maze_lines
  rw [List.map_map]
  have hrow : ∀ row : List Nat, (∀ c ∈ row, c ≤ 15) →
      (String.mk (row.map hexChar)).data.map hexVal = row := by
    intro row hle
    show (row.map hexChar).map hexVal = row
    rw [List.map_map]
    induction row with
    | nil => rfl
    | cons a l ih =>
      have ha : hexVal (hexChar a) = a := hexVal_hexChar a (hle a (by simp))
      simp only [List.map_cons, Function.comp_apply, ha]
      rw [ih (fun c hc => hle c (by simp [hc]))]
  induction g with
  | nil => rfl
  | cons row rows ih =>
    simp only [List.map_cons, Function.comp_apply]
    rw [hrow row (hmask row (by simp)), ih (fun r hr c hc => hmask r (by simp [hr]) c hc)]

/-- Witness for C8 at a concrete grid. -/
theorem maze_lines_roundtrip_witness :
    parse_maze_lines (write_maze_lines [[0, 15, 10], [3, 7, 12]]) = [[0, 15, 10], [3, 7, 12]] :=
  maze_lines_roundtrip [[0, 15, 10], [3, 7, 12]] (by decide)

/-! ### The interactive display loop (src/src/display.py) -/

/-- The ANSI colour palette of the wall-colour cycle. -/
def WALL_COLOURS : List String :=
  ["\x1b[97m", "\x1b[93m", "\x1b[96m", "\x1b[35m", "\x1b[34m", "\x1b[92m", "\x1b[91m"]

/-- The mutable state of `run_display`'s interactive loop, together with the
surrounding immutable arguments (`entry`, `exit_pt`, `pattern_cells`), which
the loop body has in scope but never rebinds. -/
structure RenderState where
  currentGrid : Grid
  currentPath : Option String
  showPath : Bool
  colourIndex : Nat
  entry : Cell
  exitPt : Cell
  pattern_cells : Finset Cell

/-- One round of `run_display`'s menu dispatch on the read choice.
`cbResult` is the pair returned by the regeneration callback for choice
`"1"`; `none` means the loop exits (choice `"4"`). -/
def run_display_step (st : RenderState) (choice : String)
    (cbResult : Grid × Option String) : Option RenderState :=
  if choice = "1" then
    some { st with currentGrid := cbResult.1, currentPath := cbResult.2, showPath := false }
  else if choice = "2" then
    some { st with showPath := !st.showPath }
  else if choice = "3" then
    some { st with colourIndex := (st.colourIndex + 1) % WALL_COLOURS.length }
  else if choice = "4" then
    none
  else
    some st

/-- C9: processing the regenerate command `"1"` replaces the current grid
and path with the callback's results and turns the show-path flag off,
leaving entry, exit, pattern cells and the colour index unchanged. -/
theorem display_regenerate_step (st : RenderState) (cbResult : Grid × Option String) :
    run_display_step st "1" cbResult =
      some (RenderState.mk cbResult.1 cbResult.2 false
        st.colourIndex st.entry st.exitPt st.pattern_cells) := by
  cases st
  rfl

/-! ### MazeGenerator (src/src/mazegen/generator.py) -/

/-- `MazeGenerator.DIRECTIONS`: `wall -> (dx, dy, opposite_wall)` entries in
the dict's insertion order N, E, S, W. -/
def DIRECTIONS : List (Nat × Int × Int × Nat) :=
  [(1, 0, -1, 4), (2, 1, 0, 8), (4, 0, 1, 1), (8, -1, 0, 2)]

/-- The fixed `(dx, dy)` offsets of the '42' pattern glyph. -/
def pattern_offsets : List (Int × Int) :=
  [(0, 0), (2, 0), (0, 1), (2, 1), (0, 2), (1, 2), (2, 2), (2, 3), (2, 4),
   (4, 0), (5, 0), (6, 0), (6, 1), (4, 2), (5, 2), (6, 2), (4, 3), (4, 4), (5, 4), (6, 4)]

/-- `MazeGenerator._get_42_pattern_cells`: empty below the 9×7 minimum,
otherwise the 20 offsets translated by the centering anchor. -/
def get_42_pattern_cells (width height : Nat) : Finset Cell :=
  if width < 9 ∨ height < 7 then ∅
  else
    (pattern_offsets.map fun o =>
      (((width : Int) - 7) / 2 + o.1, ((height : Int) - 5) / 2 + o.2)).toFinset

/-- Python's global `random` module state: an entropy tape and a position.
`random.seed(s)` replaces it by `(seedTape s, 0)`; `random.choice(l)` reads
one tape cell to index `l` and advances the position. -/
structure RandomState where
  tape : Nat → Nat
  pos : Nat

/-- The mutable state of `MazeGenerator.generate`'s carving loop. -/
structure GenSt where
  grid : Grid
  visited : Finset Cell
  stack : List Cell
  pos : Nat

/-- `self.grid[cy][cx] &= ~wall`. -/
def carve (g : Grid) (c : Cell) (wall : Nat) : Grid :=
  setCell g c (clearWall (cellAt g c) wall)

/-- The loop body's `unvisited` list: in-bounds unvisited neighbours of
`(cx, cy)` as `(wall, nx, ny, opp)`, in N, E, S, W order. -/
def unvisitedNeighbors (w h : Nat) (visited : Finset Cell) (c : Cell) :
    List (Nat × Int × Int × Nat) :=
  DIRECTIONS.filterMap fun d =>
    match d with
    | (wall, dx, dy, opp) =>
      let nx := c.1 + dx
      let ny := c.2 + dy
      if 0 ≤ nx ∧ nx < (w : Int) ∧ 0 ≤ ny ∧ ny < (h : Int) ∧ (nx, ny) ∉ visited then
        some (wall, nx, ny, opp)
      else none

/-- The `while stack:` loop of `MazeGenerator.generate`, with fuel.
`random.choice(unvisited)` is `unvisited[tape pos % len unvisited]`. -/
def genLoop (w h : Nat) (tape : Nat → Nat) : Nat → GenSt → Option GenSt
  | 0, _ => none
  | fuel + 1, st =>
    match st.stack with
    | [] => some st
    | (cx, cy) :: rest =>
      match unvisitedNeighbors w h st.visited (cx, cy) with
      | [] => genLoop w h tape fuel { st with stack := rest }
      | u :: us =>
        match (u :: us).getD (tape st.pos % (u :: us).length) u with
        | (wall, nx, ny, opp) =>
          genLoop w h tape fuel
            ⟨carve (carve st.grid (cx, cy) wall) (nx, ny) opp,
              insert (nx, ny) st.visited, (nx, ny) :: st.stack, st.pos + 1⟩

/-- The cells `(x, y)` in the row-major scan order of the start search. -/
def rowMajorCells (w h : Nat) : List Cell :=
  (List.range h).flatMap fun y => (List.range w).map fun (x : Nat) => ((x : Int), (y : Int))

/-- The start-cell search: first cell in row-major order not pre-visited,
defaulting to `(0, 0)` (the loop's initial assignment). -/
def findStart (w h : Nat) (visited : Finset Cell) : Cell :=
  ((rowMajorCells w h).find? fun c => decide (c ∉ visited)).getD (0, 0)

/-- `MazeGenerator.generate`.  If a seed is supplied, the global random
state is reset from it (`random.seed(self.seed)`); otherwise the incoming
global state is used as is.  The fuel `2 * (width * height) + 2` strictly
exceeds the loop measure, as proven below. -/
def generate (width height : Nat) (seed : Option Int) (seedTape : Int → Nat → Nat)
    (rng : RandomState) : Grid :=
  let rng' := match seed with
    | some s => RandomState.mk (seedTape s) 0
    | none => rng
  let patern := get_42_pattern_cells width height
  let start := findStart width height patern
  let st0 : GenSt := ⟨initGrid width height, insert start patern, [start], rng'.pos⟩
  match genLoop width height rng'.tape (2 * (width * height) + 2) st0 with
  | some st => st.grid
  | none => st0.grid

/-- C7: two independent runs of `generate` with the same seed and the same
dimensions produce bit-identical grids, whatever global PRNG state either
run starts from: a supplied seed resets the PRNG, so determinism is
governed purely by the seed. -/
theorem generate_seed_deterministic (width height : Nat) (s : Int)
    (seedTape : Int → Nat → Nat) (rng1 rng2 : RandomState) :
    generate width height (some s) seedTape rng1 =
      generate width height (some s) seedTape rng2 := rfl

/-! ### Open edges of a grid -/

/-- `e` is an open passage oriented east or south: the second cell is the
east or south neighbour of the first and both facing wall bits are clear
("mutually wall-cleared").  Each open wall pair is thus counted once. -/
def openEdge (g : Grid) (e : Cell × Cell) : Prop :=
  (e.2 = (e.1.1 + 1, e.1.2) ∧ cellAt g e.1 &&& 2 = 0 ∧ cellAt g e.2 &&& 8 = 0) ∨
  (e.2 = (e.1.1, e.1.2 + 1) ∧ cellAt g e.1 &&& 4 = 0 ∧ cellAt g e.2 &&& 1 = 0)

instance (g : Grid) (e : Cell × Cell) : Decidable (openEdge g e) := by
  unfold openEdge; infer_instance

/-- The set of open edge-pairs between in-bounds cells. -/
def openEdges (w h : Nat) (g : Grid) : Finset (Cell × Cell) :=
  (boxFinset w h ×ˢ boxFinset w h).filter (openEdge g)

theorem mem_openEdges {w h : Nat} {g : Grid} {e : Cell × Cell} :
    e ∈ openEdges w h g ↔ e.1 ∈ boxFinset w h ∧ e.2 ∈ boxFinset w h ∧ openEdge g e := by
  unfold openEdges
  rw [Finset.mem_filter, Finset.mem_product]
  tauto

theorem openEdges_initGrid (w h : Nat) : openEdges w h (initGrid w h) = ∅ := by
  apply Finset.eq_empty_of_forall_not_mem
  intro e he
  rcases mem_openEdges.mp he with ⟨_, _, hopen⟩
  rcases hopen with ⟨_, hb, _⟩ | ⟨_, hb, _⟩ <;>
    rw [cellAt_initGrid] at hb <;> simp at hb

/-! ### Chains over an edge set -/

/-- A length-`n` chain between cells using edges of `E` in either
orientation. -/
inductive EChain (E : Finset (Cell × Cell)) : Nat → Cell → Cell → Prop
  | refl (a : Cell) : EChain E 0 a a
  | head {a b c : Cell} {n : Nat} :
      ((a, b) ∈ E ∨ (b, a) ∈ E) → EChain E n b c → EChain E (n + 1) a c

/-- Connectivity through the edge set `E`. -/
def Reach (E : Finset (Cell × Cell)) (a b : Cell) : Prop := ∃ n, EChain E n a b

theorem Reach.refl (E : Finset (Cell × Cell)) (a : Cell) : Reach E a a :=
  ⟨0, EChain.refl a⟩

theorem Reach.head {E : Finset (Cell × Cell)} {a b c : Cell}
    (hstep : (a, b) ∈ E ∨ (b, a) ∈ E) (hr : Reach E b c) : Reach E a c := by
  obtain ⟨n, hc⟩ := hr
  exact ⟨n + 1, EChain.head hstep hc⟩

theorem echain_snoc {E : Finset (Cell × Cell)} :
    ∀ {n : Nat} {a b c : Cell}, EChain E n a b →
      ((b, c) ∈ E ∨ (c, b) ∈ E) → EChain E (n + 1) a c := by
  intro n a b c hab hstep
  induction hab with
  | refl a => exact EChain.head hstep (EChain.refl _)
  | head hs _ ih => exact EChain.head hs (ih hstep)

theorem echain_symm {E : Finset (Cell × Cell)} :
    ∀ {n : Nat} {a b : Cell}, EChain E n a b → EChain E n b a := by
  intro n a b hab
  induction hab with
  | refl a => exact EChain.refl a
  | head hs _ ih => exact echain_snoc ih (hs.symm)

theorem Reach.symm {E : Finset (Cell × Cell)} {a b : Cell}
    (h : Reach E a b) : Reach E b a := by
  obtain ⟨n, hc⟩ := h
  exact ⟨n, echain_symm hc⟩

theorem echain_trans {E : Finset (Cell × Cell)} :
    ∀ {n m : Nat} {a b c : Cell}, EChain E n a b → EChain E m b c →
      EChain E (n + m) a c := by
  intro n m a b c hab hbc
  induction hab with
  | refl a => simpa using hbc
  | head hs _ ih => exact (Nat.add_right_comm _ 1 _) ▸ EChain.head hs (ih hbc)

theorem Reach.trans {E : Finset (Cell × Cell)} {a b c : Cell}
    (h1 : Reach E a b) (h2 : Reach E b c) : Reach E a c := by
  obtain ⟨n, hn⟩ := h1
  obtain ⟨m, hm⟩ := h2
  exact ⟨n + m, echain_trans hn hm⟩

theorem echain_mono {E E' : Finset (Cell × Cell)} (hsub : E ⊆ E') :
    ∀ {n : Nat} {a b : Cell}, EChain E n a b → EChain E' n a b := by
  intro n a b hab
  induction hab with
  | refl a => exact EChain.refl a
  | head hs _ ih => exact EChain.head (hs.imp (fun hx => hsub hx) fun hx => hsub hx) ih

theorem Reach.mono {E E' : Finset (Cell × Cell)} (hsub : E ⊆ E') {a b : Cell}
    (h : Reach E a b) : Reach E' a b := by
  obtain ⟨n, hn⟩ := h
  exact ⟨n, echain_mono hsub hn⟩

/-! ### Trees grown by attaching fresh leaves

The carving loop only ever opens a wall between a visited cell and a fresh
unvisited cell, so the visited set and the open edge set grow as below. -/

/-- `GrowsTree V E`: `E` was built over vertex set `V` by starting from a
single vertex and repeatedly attaching a fresh vertex by one new edge. -/
inductive GrowsTree : Finset Cell → Finset (Cell × Cell) → Prop
  | single (v : Cell) : GrowsTree {v} ∅
  | grow {V : Finset Cell} {E : Finset (Cell × Cell)} (u v : Cell) (e : Cell × Cell) :
      GrowsTree V E → u ∈ V → v ∉ V → (e = (u, v) ∨ e = (v, u)) → e ∉ E →
      GrowsTree (insert v V) (insert e E)

theorem GrowsTree.edge_mem {V : Finset Cell} {E : Finset (Cell × Cell)}
    (h : GrowsTree V E) : ∀ e ∈ E, e.1 ∈ V ∧ e.2 ∈ V := by
  induction h with
  | single v => intro e he; simp at he
  | grow u v e hVE hu hv heq henew ih =>
    intro f hf
    rcases Finset.mem_insert.mp hf with rfl | hfE
    · rcases heq with rfl | rfl
      · exact ⟨Finset.mem_insert_of_mem hu, Finset.mem_insert_self _ _⟩
      · exact ⟨Finset.mem_insert_self _ _, Finset.mem_insert_of_mem hu⟩
    · obtain ⟨hf1, hf2⟩ := ih f hfE
      exact ⟨Finset.mem_insert_of_mem hf1, Finset.mem_insert_of_mem hf2⟩

theorem GrowsTree.card_eq {V : Finset Cell} {E : Finset (Cell × Cell)}
    (h : GrowsTree V E) : E.card + 1 = V.card := by
  induction h with
  | single v => simp
  | grow u v e hVE hu hv heq henew ih =>
    rw [Finset.card_insert_of_not_mem henew, Finset.card_insert_of_not_mem hv]
    omega

theorem GrowsTree.reach {V : Finset Cell} {E : Finset (Cell × Cell)}
    (h : GrowsTree V E) : ∀ a ∈ V, ∀ b ∈ V, Reach E a b := by
  induction h with
  | single v =>
    intro a ha b hb
    rw [Finset.mem_singleton] at ha hb
    subst ha; subst hb
    exact Reach.refl _ _
  | grow u v e hVE hu hv heq henew ih =>
    rename_i V E
    have hsub : E ⊆ insert e E := Finset.subset_insert _ _
    have hstep : Reach (insert e E) u v := by
      refine Reach.head ?_ (Reach.refl _ _)
      rcases heq with rfl | rfl
      · exact Or.inl (Finset.mem_insert_self _ _)
      · exact Or.inr (Finset.mem_insert_self _ _)
    intro a ha b hb
    rcases Finset.mem_insert.mp ha with rfl | haV
    · rcases Finset.mem_insert.mp hb with rfl | hbV
      · exact Reach.refl _ _
      · exact Reach.trans hstep.symm ((ih u hu b hbV).mono hsub)
    · rcases Finset.mem_insert.mp hb with rfl | hbV
      · exact Reach.trans ((ih a haV u hu).mono hsub) hstep
      · exact (ih a haV b hbV).mono hsub

theorem echain_isolated {E : Finset (Cell × Cell)} {v : Cell}
    (hinc : ∀ f ∈ E, f.1 ≠ v ∧ f.2 ≠ v) :
    ∀ {n : Nat} {a b : Cell}, EChain E n a b → b = v → a = v := by
  intro n a b hch
  induction hch with
  | refl a => exact fun hv => hv
  | head hs htail ih =>
    intro hv
    have hmid := ih hv
    subst hmid
    rcases hs with hs | hs
    · exact absurd (hinc _ hs).2 (by simp)
    · exact absurd (hinc _ hs).1 (by simp)

theorem echain_elim_pivot {E1 : Finset (Cell × Cell)} {e' : Cell × Cell} {v : Cell}
    (hinc : ∀ f ∈ E1, (f.1 = v ∨ f.2 = v) → f = e')
    (hv : e'.1 = v ∨ e'.2 = v) :
    ∀ n : Nat, ∀ a b : Cell, a ≠ v → b ≠ v → EChain E1 n a b →
      Reach (E1.erase e') a b := by
  intro n
  induction n using Nat.strong_induction_on with
  | _ n ihn =>
    intro a b ha hb hch
    cases hch with
    | refl a => exact Reach.refl _ _
    | head hs htail =>
      rename_i mid m
      by_cases hmid : mid = v
      · rw [hmid] at hs htail
        cases htail with
        | refl _ => exact absurd rfl hb
        | head hs2 htail2 =>
          rename_i mid2 m2
          have hf1 : e' = (a, v) ∨ e' = (v, a) := by
            rcases hs with hs | hs
            · exact Or.inl (hinc _ hs (Or.inr rfl)).symm
            · exact Or.inr (hinc _ hs (Or.inl rfl)).symm
          have hf2 : e' = (v, mid2) ∨ e' = (mid2, v) := by
            rcases hs2 with hs2 | hs2
            · exact Or.inl (hinc _ hs2 (Or.inl rfl)).symm
            · exact Or.inr (hinc _ hs2 (Or.inr rfl)).symm
          have hmid2a : mid2 = a := by
            rcases hf1 with h1 | h1 <;> rcases hf2 with h2 | h2
            · have h3 : ((a, v) : Cell × Cell) = (v, mid2) := by rw [← h1, h2]
              injection h3 with h4 h5
              exact absurd h4 ha
            · have h3 : ((a, v) : Cell × Cell) = (mid2, v) := by rw [← h1, h2]
              injection h3 with h4 h5
              exact h4.symm
            · have h3 : ((v, a) : Cell × Cell) = (v, mid2) := by rw [← h1, h2]
              injection h3 with h4 h5
              exact h5.symm
            · have h3 : ((v, a) : Cell × Cell) = (mid2, v) := by rw [← h1, h2]
              injection h3 with h4 h5
              exact absurd h5 ha
          rw [hmid2a] at htail2
          exact ihn m2 (by omega) a b ha hb htail2
      · have hstep' : (a, mid) ∈ E1.erase e' ∨ (mid, a) ∈ E1.erase e' := by
          rcases hs with hs | hs
          · refine Or.inl (Finset.mem_erase.mpr ⟨?_, hs⟩)
            intro hEq
            rcases hv with hv1 | hv1
            · rw [← hEq] at hv1
              exact ha hv1
            · rw [← hEq] at hv1
              exact hmid hv1
          · refine Or.inr (Finset.mem_erase.mpr ⟨?_, hs⟩)
            intro hEq
            rcases hv with hv1 | hv1
            · rw [← hEq] at hv1
              exact hmid hv1
            · rw [← hEq] at hv1
              exact ha hv1
        exact Reach.head hstep' (ihn m (by omega) mid b hmid hb htail)

theorem GrowsTree.bridge {V : Finset Cell} {E : Finset (Cell × Cell)}
    (h : GrowsTree V E) : ∀ e ∈ E, ¬ Reach (E.erase e) e.1 e.2 := by
  induction h with
  | single v => intro e he; simp at he
  | grow u v e hVE hu hv heq henew ih =>
    rename_i V E
    intro f hf
    rcases Finset.mem_insert.mp hf with rfl | hfE
    · rw [Finset.erase_insert henew]
      intro hreach
      have hiso : ∀ g ∈ E, g.1 ≠ v ∧ g.2 ≠ v := by
        intro g hg
        obtain ⟨hg1, hg2⟩ := hVE.edge_mem g hg
        constructor
        · intro hgv; rw [hgv] at hg1; exact hv hg1
        · intro hgv; rw [hgv] at hg2; exact hv hg2
      have huv : u ≠ v := fun huv => hv (huv ▸ hu)
      rcases heq with rfl | rfl
      · obtain ⟨n, hch⟩ := hreach
        exact huv (echain_isolated hiso hch rfl)
      · obtain ⟨n, hch⟩ := hreach
        exact huv (echain_isolated hiso (echain_symm hch) rfl)
    · have hne : f ≠ e := fun hfe => henew (hfe ▸ hfE)
      rw [Finset.erase_insert_of_ne hne.symm]
      intro hreach
      obtain ⟨hf1V, hf2V⟩ := hVE.edge_mem f hfE
      have hf1v : f.1 ≠ v := fun hx => hv (hx ▸ hf1V)
      have hf2v : f.2 ≠ v := fun hx => hv (hx ▸ hf2V)
      have hinc : ∀ g ∈ insert e (E.erase f), (g.1 = v ∨ g.2 = v) → g = e := by
        intro g hg hgv
        rcases Finset.mem_insert.mp hg with rfl | hgE
        · rfl
        · obtain ⟨hgne, hgE'⟩ := Finset.mem_erase.mp hgE
          obtain ⟨hg1, hg2⟩ := hVE.edge_mem g hgE'
          rcases hgv with hx | hx
          · exact ((hv (hx ▸ hg1)).elim)
          · exact ((hv (hx ▸ hg2)).elim)
      have hv' : e.1 = v ∨ e.2 = v := by
        rcases heq with rfl | rfl
        · exact Or.inr rfl
        · exact Or.inl rfl
      obtain ⟨n, hch⟩ := hreach
      have helim := echain_elim_pivot hinc hv' n f.1 f.2 hf1v hf2v hch
      rw [Finset.erase_insert (fun hx => henew (Finset.mem_of_mem_erase hx))] at helim
      exact ih f hfE helim

/-! ### How one carve step changes the grid -/

theorem clearWall_and_eq_zero {v wall b : Nat} (h : v &&& b = 0) :
    clearWall v wall &&& b = 0 := by
  apply Nat.eq_of_testBit_eq
  intro i
  have hb := congrArg (fun t => t.testBit i) h
  simp only [Nat.testBit_land, Nat.zero_testBit] at hb
  rw [Nat.testBit_land, testBit_clearWall, Nat.zero_testBit]
  cases hvv : v.testBit i <;> cases hbb : b.testBit i <;> simp_all

theorem setCell_comm {g : Grid} {w h : Nat} (hs : GridShape g w h)
    {c n : Cell} (hc : InBox w h c) (hn : InBox w h n) (hcn : c ≠ n)
    (v1 v2 : Nat) : setCell (setCell g c v1) n v2 = setCell (setCell g n v2) c v1 := by
  obtain ⟨hc1, hc2, hc3, hc4⟩ := hc
  obtain ⟨hn1, hn2, hn3, hn4⟩ := hn
  obtain ⟨hl, hr⟩ := hs
  have hyc : c.2.toNat < g.length := by omega
  have hyn : n.2.toNat < g.length := by omega
  by_cases hyy : c.2.toNat = n.2.toNat
  · have hy2 : c.2 = n.2 := by omega
    have hxx : c.1.toNat ≠ n.1.toNat := by
      intro hx
      apply hcn
      have e1 : c.1 = n.1 := by omega
      exact Prod.ext_iff.mpr ⟨e1, hy2⟩
    unfold setCell
    have ec : (g.set c.2.toNat ((g.getD c.2.toNat []).set c.1.toNat v1)).getD n.2.toNat [] =
        (g.getD c.2.toNat []).set c.1.toNat v1 := by
      rw [← hyy, List.getD_eq_getElem _ _ (by simpa using hyc)]
      exact List.getElem_set_self _
    have en : (g.set n.2.toNat ((g.getD n.2.toNat []).set n.1.toNat v2)).getD c.2.toNat [] =
        (g.getD n.2.toNat []).set n.1.toNat v2 := by
      rw [hyy, List.getD_eq_getElem _ _ (by simpa using hyn)]
      exact List.getElem_set_self _
    rw [ec, en, ← hyy, List.set_set, List.set_set, List.set_comm _ _ _ hxx]
  · unfold setCell
    have ec : (g.set c.2.toNat ((g.getD c.2.toNat []).set c.1.toNat v1)).getD n.2.toNat [] =
        g.getD n.2.toNat [] := by
      simp only [List.getD_eq_getElem?_getD, List.getElem?_set_ne hyy]
    have en : (g.set n.2.toNat ((g.getD n.2.toNat []).set n.1.toNat v2)).getD c.2.toNat [] =
        g.getD c.2.toNat [] := by
      simp only [List.getD_eq_getElem?_getD,
        List.getElem?_set_ne (fun hx => hyy hx.symm)]
    rw [ec, en, List.set_comm _ _ _ hyy]

theorem carve_comm {g : Grid} {w h : Nat} (hs : GridShape g w h)
    {c n : Cell} (hc : InBox w h c) (hn : InBox w h n) (hcn : c ≠ n)
    (w1 w2 : Nat) : carve (carve g c w1) n w2 = carve (carve g n w2) c w1 := by
  unfold carve
  rw [cellAt_setCell_other hs hc _ (fun hx => hcn hx.symm),
    cellAt_setCell_other hs hn _ hcn]
  exact setCell_comm hs hc hn hcn _ _

/-- Cell values after the double carve `grid[c] &= ~wb; grid[n] &= ~ob`. -/
theorem cellAt_carve2_left {g : Grid} {w h : Nat} (hs : GridShape g w h)
    {c n : Cell} (hc : InBox w h c) (hn : InBox w h n) (hcn : c ≠ n)
    (wb ob : Nat) :
    cellAt (carve (carve g c wb) n ob) c = clearWall (cellAt g c) wb := by
  unfold carve
  rw [cellAt_setCell_other (gridShape_setCell hs _ _) hn _ hcn,
    cellAt_setCell_same hs hc]

theorem cellAt_carve2_right {g : Grid} {w h : Nat} (hs : GridShape g w h)
    {c n : Cell} (hc : InBox w h c) (hn : InBox w h n) (hcn : c ≠ n)
    (wb ob : Nat) :
    cellAt (carve (carve g c wb) n ob) n = clearWall (cellAt g n) ob := by
  unfold carve
  rw [cellAt_setCell_same (gridShape_setCell hs _ _) hn,
    cellAt_setCell_other hs hc _ (fun hx => hcn hx.symm)]

theorem cellAt_carve2_other {g : Grid} {w h : Nat} (hs : GridShape g w h)
    {c n : Cell} (hc : InBox w h c) (hn : InBox w h n)
    (wb ob : Nat) {z : Cell} (hzc : z ≠ c) (hzn : z ≠ n) :
    cellAt (carve (carve g c wb) n ob) z = cellAt g z := by
  unfold carve
  rw [cellAt_setCell_other (gridShape_setCell hs _ _) hn _ hzn,
    cellAt_setCell_other hs hc _ hzc]

theorem gridShape_carve2 {g : Grid} {w h : Nat} (hs : GridShape g w h)
    (c n : Cell) (wb ob : Nat) :
    GridShape (carve (carve g c wb) n ob) w h :=
  gridShape_setCell (gridShape_setCell hs _ _) _ _

/-- Opening the east wall between `a` and its east neighbour adds exactly
that one open edge-pair. -/
theorem openEdges_carve_east {g : Grid} {w h : Nat} (hs : GridShape g w h)
    {a : Cell} (ha : InBox w h a) (hb : InBox w h (a.1 + 1, a.2))
    (hfresh : cellAt g a &&& 2 ≠ 0 ∨ cellAt g (a.1 + 1, a.2) &&& 8 ≠ 0) :
    openEdges w h (carve (carve g a 2) (a.1 + 1, a.2) 8) =
      insert (a, (a.1 + 1, a.2)) (openEdges w h g) ∧
    (a, (a.1 + 1, a.2)) ∉ openEdges w h g := by
  have hcn : a ≠ ((a.1 + 1, a.2) : Cell) := by
    intro hx
    have hx1 := congrArg Prod.fst hx
    simp at hx1
  have hL := cellAt_carve2_left hs ha hb hcn 2 8
  have hR := cellAt_carve2_right hs ha hb hcn 2 8
  have hnotold : (a, ((a.1 + 1, a.2) : Cell)) ∉ openEdges w h g := by
    intro hmem
    rcases mem_openEdges.mp hmem with ⟨_, _, hoe⟩
    rcases hoe with ⟨_, hx2, hx8⟩ | ⟨hstruct, _, _⟩
    · rcases hfresh with hf | hf
      · exact hf hx2
      · exact hf hx8
    · have hfst := congrArg Prod.fst hstruct
      simp at hfst
  have hbit2 : ∀ z : Cell, z ≠ a →
      cellAt (carve (carve g a 2) (a.1 + 1, a.2) 8) z &&& 2 = cellAt g z &&& 2 := by
    intro z hz
    by_cases hzb : z = ((a.1 + 1, a.2) : Cell)
    · rw [hzb, hR, clearWall_and_other _ _ _ (by decide)]
    · rw [cellAt_carve2_other hs ha hb 2 8 hz hzb]
  have hbit8 : ∀ z : Cell, z ≠ ((a.1 + 1, a.2) : Cell) →
      cellAt (carve (carve g a 2) (a.1 + 1, a.2) 8) z &&& 8 = cellAt g z &&& 8 := by
    intro z hz
    by_cases hza : z = a
    · rw [hza, hL, clearWall_and_other _ _ _ (by decide)]
    · rw [cellAt_carve2_other hs ha hb 2 8 hza hz]
  have hbit4 : ∀ z : Cell,
      cellAt (carve (carve g a 2) (a.1 + 1, a.2) 8) z &&& 4 = cellAt g z &&& 4 := by
    intro z
    by_cases hza : z = a
    · rw [hza, hL, clearWall_and_other _ _ _ (by decide)]
    · by_cases hzb : z = ((a.1 + 1, a.2) : Cell)
      · rw [hzb, hR, clearWall_and_other _ _ _ (by decide)]
      · rw [cellAt_carve2_other hs ha hb 2 8 hza hzb]
  have hbit1 : ∀ z : Cell,
      cellAt (carve (carve g a 2) (a.1 + 1, a.2) 8) z &&& 1 = cellAt g z &&& 1 := by
    intro z
    by_cases hza : z = a
    · rw [hza, hL, clearWall_and_other _ _ _ (by decide)]
    · by_cases hzb : z = ((a.1 + 1, a.2) : Cell)
      · rw [hzb, hR, clearWall_and_other _ _ _ (by decide)]
      · rw [cellAt_carve2_other hs ha hb 2 8 hza hzb]
  have hiff : ∀ e : Cell × Cell, e ≠ (a, (a.1 + 1, a.2)) →
      (openEdge (carve (carve g a 2) (a.1 + 1, a.2) 8) e ↔ openEdge g e) := by
    intro e hnee
    have hsplit : (e.2 = ((e.1.1 + 1, e.1.2) : Cell)) →
        e.1 ≠ a ∧ e.2 ≠ ((a.1 + 1, a.2) : Cell) := by
      intro hst
      have h1a : e.1 ≠ a := by
        intro h1a
        apply hnee
        rw [h1a] at hst
        exact Prod.ext_iff.mpr ⟨h1a, hst⟩
      refine ⟨h1a, ?_⟩
      intro h2b
      apply h1a
      rw [h2b] at hst
      have hfst := congrArg Prod.fst hst
      have hsnd := congrArg Prod.snd hst
      simp at hfst hsnd
      exact Prod.ext_iff.mpr ⟨by omega, hsnd.symm⟩
    unfold openEdge
    constructor
    · rintro (⟨hst, hx2, hx8⟩ | ⟨hst, hx4, hx1⟩)
      · obtain ⟨h1a, h2b⟩ := hsplit hst
        refine Or.inl ⟨hst, ?_, ?_⟩
        · rw [← hbit2 e.1 h1a]; exact hx2
        · rw [← hbit8 e.2 h2b]; exact hx8
      · refine Or.inr ⟨hst, ?_, ?_⟩
        · rw [← hbit4 e.1]; exact hx4
        · rw [← hbit1 e.2]; exact hx1
    · rintro (⟨hst, hx2, hx8⟩ | ⟨hst, hx4, hx1⟩)
      · obtain ⟨h1a, h2b⟩ := hsplit hst
        refine Or.inl ⟨hst, ?_, ?_⟩
        · rw [hbit2 e.1 h1a]; exact hx2
        · rw [hbit8 e.2 h2b]; exact hx8
      · refine Or.inr ⟨hst, ?_, ?_⟩
        · rw [hbit4 e.1]; exact hx4
        · rw [hbit1 e.2]; exact hx1
  refine ⟨?_, hnotold⟩
  ext e
  rw [mem_openEdges, Finset.mem_insert, mem_openEdges]
  by_cases hne : e = (a, ((a.1 + 1, a.2) : Cell))
  · subst hne
    constructor
    · intro _
      exact Or.inl rfl
    · intro _
      refine ⟨mem_boxFinset.mpr ha, mem_boxFinset.mpr hb, Or.inl ⟨rfl, ?_, ?_⟩⟩
      · rw [hL]
        exact clearWall_and_self _ _
      · rw [hR]
        exact clearWall_and_self _ _
  · constructor
    · rintro ⟨hb1, hb2, hoe⟩
      exact Or.inr ⟨hb1, hb2, (hiff e hne).mp hoe⟩
    · rintro (rfl | ⟨hb1, hb2, hoe⟩)
      · exact absurd rfl hne
      · exact ⟨hb1, hb2, (hiff e hne).mpr hoe⟩

/-- Opening the south wall between `a` and its south neighbour adds exactly
that one open edge-pair. -/
theorem openEdges_carve_south {g : Grid} {w h : Nat} (hs : GridShape g w h)
    {a : Cell} (ha : InBox w h a) (hb : InBox w h (a.1, a.2 + 1))
    (hfresh : cellAt g a &&& 4 ≠ 0 ∨ cellAt g (a.1, a.2 + 1) &&& 1 ≠ 0) :
    openEdges w h (carve (carve g a 4) (a.1, a.2 + 1) 1) =
      insert (a, (a.1, a.2 + 1)) (openEdges w h g) ∧
    (a, (a.1, a.2 + 1)) ∉ openEdges w h g := by
  have hcn : a ≠ ((a.1, a.2 + 1) : Cell) := by
    intro hx
    have hx1 := congrArg Prod.snd hx
    simp at hx1
  have hL := cellAt_carve2_left hs ha hb hcn 4 1
  have hR := cellAt_carve2_right hs ha hb hcn 4 1
  have hnotold : (a, ((a.1, a.2 + 1) : Cell)) ∉ openEdges w h g := by
    intro hmem
    rcases mem_openEdges.mp hmem with ⟨_, _, hoe⟩
    rcases hoe with ⟨hstruct, _, _⟩ | ⟨_, hx4, hx1⟩
    · have hsnd := congrArg Prod.snd hstruct
      simp at hsnd
    · rcases hfresh with hf | hf
      · exact hf hx4
      · exact hf hx1
  have hbit4 : ∀ z : Cell, z ≠ a →
      cellAt (carve (carve g a 4) (a.1, a.2 + 1) 1) z &&& 4 = cellAt g z &&& 4 := by
    intro z hz
    by_cases hzb : z = ((a.1, a.2 + 1) : Cell)
    · rw [hzb, hR, clearWall_and_other _ _ _ (by decide)]
    · rw [cellAt_carve2_other hs ha hb 4 1 hz hzb]
  have hbit1 : ∀ z : Cell, z ≠ ((a.1, a.2 + 1) : Cell) →
      cellAt (carve (carve g a 4) (a.1, a.2 + 1) 1) z &&& 1 = cellAt g z &&& 1 := by
    intro z hz
    by_cases hza : z = a
    · rw [hza, hL, clearWall_and_other _ _ _ (by decide)]
    · rw [cellAt_carve2_other hs ha hb 4 1 hza hz]
  have hbit2 : ∀ z : Cell,
      cellAt (carve (carve g a 4) (a.1, a.2 + 1) 1) z &&& 2 = cellAt g z &&& 2 := by
    intro z
    by_cases hza : z = a
    · rw [hza, hL, clearWall_and_other _ _ _ (by decide)]
    · by_cases hzb : z = ((a.1, a.2 + 1) : Cell)
      · rw [hzb, hR, clearWall_and_other _ _ _ (by decide)]
      · rw [cellAt_carve2_other hs ha hb 4 1 hza hzb]
  have hbit8 : ∀ z : Cell,
      cellAt (carve (carve g a 4) (a.1, a.2 + 1) 1) z &&& 8 = cellAt g z &&& 8 := by
    intro z
    by_cases hza : z = a
    · rw [hza, hL, clearWall_and_other _ _ _ (by decide)]
    · by_cases hzb : z = ((a.1, a.2 + 1) : Cell)
      · rw [hzb, hR, clearWall_and_other _ _ _ (by decide)]
      · rw [cellAt_carve2_other hs ha hb 4 1 hza hzb]
  have hiff : ∀ e : Cell × Cell, e ≠ (a, (a.1, a.2 + 1)) →
      (openEdge (carve (carve g a 4) (a.1, a.2 + 1) 1) e ↔ openEdge g e) := by
    intro e hnee
    have hsplit : (e.2 = ((e.1.1, e.1.2 + 1) : Cell)) →
        e.1 ≠ a ∧ e.2 ≠ ((a.1, a.2 + 1) : Cell) := by
      intro hst
      have h1a : e.1 ≠ a := by
        intro h1a
        apply hnee
        rw [h1a] at hst
        exact Prod.ext_iff.mpr ⟨h1a, hst⟩
      refine ⟨h1a, ?_⟩
      intro h2b
      apply h1a
      rw [h2b] at hst
      have hfst := congrArg Prod.fst hst
      have hsnd := congrArg Prod.snd hst
      simp at hfst hsnd
      exact Prod.ext_iff.mpr ⟨hfst.symm, by omega⟩
    unfold openEdge
    constructor
    · rintro (⟨hst, hx2, hx8⟩ | ⟨hst, hx4, hx1⟩)
      · refine Or.inl ⟨hst, ?_, ?_⟩
        · rw [← hbit2 e.1]; exact hx2
        · rw [← hbit8 e.2]; exact hx8
      · obtain ⟨h1a, h2b⟩ := hsplit hst
        refine Or.inr ⟨hst, ?_, ?_⟩
        · rw [← hbit4 e.1 h1a]; exact hx4
        · rw [← hbit1 e.2 h2b]; exact hx1
    · rintro (⟨hst, hx2, hx8⟩ | ⟨hst, hx4, hx1⟩)
      · refine Or.inl ⟨hst, ?_, ?_⟩
        · rw [hbit2 e.1]; exact hx2
        · rw [hbit8 e.2]; exact hx8
      · obtain ⟨h1a, h2b⟩ := hsplit hst
        refine Or.inr ⟨hst, ?_, ?_⟩
        · rw [hbit4 e.1 h1a]; exact hx4
        · rw [hbit1 e.2 h2b]; exact hx1
  refine ⟨?_, hnotold⟩
  ext e
  rw [mem_openEdges, Finset.mem_insert, mem_openEdges]
  by_cases hne : e = (a, ((a.1, a.2 + 1) : Cell))
  · subst hne
    constructor
    · intro _
      exact Or.inl rfl
    · intro _
      refine ⟨mem_boxFinset.mpr ha, mem_boxFinset.mpr hb, Or.inr ⟨rfl, ?_, ?_⟩⟩
      · rw [hL]
        exact clearWall_and_self _ _
      · rw [hR]
        exact clearWall_and_self _ _
  · constructor
    · rintro ⟨hb1, hb2, hoe⟩
      exact Or.inr ⟨hb1, hb2, (hiff e hne).mp hoe⟩
    · rintro (rfl | ⟨hb1, hb2, hoe⟩)
      · exact absurd rfl hne
      · exact ⟨hb1, hb2, (hiff e hne).mpr hoe⟩

/-! ### The mirrored-walls property -/

/-- Walls between adjacent cells are consistent: a cell's east (resp.
south) bit is clear exactly when the west (resp. north) bit of the
neighbour it faces is clear.  The north/west families follow by reindexing. -/
def Mirrored (g : Grid) : Prop :=
  ∀ c : Cell,
    (cellAt g c &&& 2 = 0 ↔ cellAt g (c.1 + 1, c.2) &&& 8 = 0) ∧
    (cellAt g c &&& 4 = 0 ↔ cellAt g (c.1, c.2 + 1) &&& 1 = 0)

theorem mirrored_initGrid (w h : Nat) : Mirrored (initGrid w h) := by
  intro c
  rw [cellAt_initGrid, cellAt_initGrid, cellAt_initGrid]
  exact ⟨by decide, by decide⟩

theorem mirrored_carve_east {g : Grid} {w h : Nat} (hs : GridShape g w h)
    {a : Cell} (ha : InBox w h a) (hb : InBox w h (a.1 + 1, a.2))
    (hm : Mirrored g) : Mirrored (carve (carve g a 2) (a.1 + 1, a.2) 8) := by
  have hcn : a ≠ ((a.1 + 1, a.2) : Cell) := by
    intro hx
    have hx1 := congrArg Prod.fst hx
    simp at hx1
  have hL := cellAt_carve2_left hs ha hb hcn 2 8
  have hR := cellAt_carve2_right hs ha hb hcn 2 8
  have hval : ∀ z : Cell, ∀ b : Nat, (z = a → 2 &&& b = 0) →
      (z = ((a.1 + 1, a.2) : Cell) → 8 &&& b = 0) →
      cellAt (carve (carve g a 2) (a.1 + 1, a.2) 8) z &&& b = cellAt g z &&& b := by
    intro z b hza hzb
    by_cases h1 : z = a
    · subst h1
      rw [hL, clearWall_and_other _ _ _ (hza rfl)]
    · by_cases h2 : z = ((a.1 + 1, a.2) : Cell)
      · subst h2
        rw [hR, clearWall_and_other _ _ _ (hzb rfl)]
      · rw [cellAt_carve2_other hs ha hb 2 8 h1 h2]
  intro c
  constructor
  · by_cases hca : c = a
    · subst hca
      constructor
      · intro _
        rw [hR]
        exact clearWall_and_self _ _
      · intro _
        rw [hL]
        exact clearWall_and_self _ _
    · have hc2 : cellAt (carve (carve g a 2) (a.1 + 1, a.2) 8) c &&& 2 = cellAt g c &&& 2 :=
        hval c 2 (fun hx => absurd hx hca) (fun _ => by decide)
      have hc8 : cellAt (carve (carve g a 2) (a.1 + 1, a.2) 8) (c.1 + 1, c.2) &&& 8 =
          cellAt g (c.1 + 1, c.2) &&& 8 := by
        refine hval _ 8 (fun _ => by decide) (fun hx => ?_)
        exfalso
        apply hca
        have h1 := congrArg Prod.fst hx
        have h2 := congrArg Prod.snd hx
        simp at h1 h2
        exact Prod.ext_iff.mpr ⟨h1, h2⟩
      rw [hc2, hc8]
      exact (hm c).1
  · have hc4 : cellAt (carve (carve g a 2) (a.1 + 1, a.2) 8) c &&& 4 = cellAt g c &&& 4 :=
      hval c 4 (fun _ => by decide) (fun _ => by decide)
    have hc1 : cellAt (carve (carve g a 2) (a.1 + 1, a.2) 8) (c.1, c.2 + 1) &&& 1 =
        cellAt g (c.1, c.2 + 1) &&& 1 :=
      hval _ 1 (fun _ => by decide) (fun _ => by decide)
    rw [hc4, hc1]
    exact (hm c).2

theorem mirrored_carve_south {g : Grid} {w h : Nat} (hs : GridShape g w h)
    {a : Cell} (ha : InBox w h a) (hb : InBox w h (a.1, a.2 + 1))
    (hm : Mirrored g) : Mirrored (carve (carve g a 4) (a.1, a.2 + 1) 1) := by
  have hcn : a ≠ ((a.1, a.2 + 1) : Cell) := by
    intro hx
    have hx1 := congrArg Prod.snd hx
    simp at hx1
  have hL := cellAt_carve2_left hs ha hb hcn 4 1
  have hR := cellAt_carve2_right hs ha hb hcn 4 1
  have hval : ∀ z : Cell, ∀ b : Nat, (z = a → 4 &&& b = 0) →
      (z = ((a.1, a.2 + 1) : Cell) → 1 &&& b = 0) →
      cellAt (carve (carve g a 4) (a.1, a.2 + 1) 1) z &&& b = cellAt g z &&& b := by
    intro z b hza hzb
    by_cases h1 : z = a
    · subst h1
      rw [hL, clearWall_and_other _ _ _ (hza rfl)]
    · by_cases h2 : z = ((a.1, a.2 + 1) : Cell)
      · subst h2
        rw [hR, clearWall_and_other _ _ _ (hzb rfl)]
      · rw [cellAt_carve2_other hs ha hb 4 1 h1 h2]
  intro c
  constructor
  · have hc2 : cellAt (carve (carve g a 4) (a.1, a.2 + 1) 1) c &&& 2 = cellAt g c &&& 2 :=
      hval c 2 (fun _ => by decide) (fun _ => by decide)
    have hc8 : cellAt (carve (carve g a 4) (a.1, a.2 + 1) 1) (c.1 + 1, c.2) &&& 8 =
        cellAt g (c.1 + 1, c.2) &&& 8 :=
      hval _ 8 (fun _ => by decide) (fun _ => by decide)
    rw [hc2, hc8]
    exact (hm c).1
  · by_cases hca : c = a
    · subst hca
      constructor
      · intro _
        rw [hR]
        exact clearWall_and_self _ _
      · intro _
        rw [hL]
        exact clearWall_and_self _ _
    · have hc4 : cellAt (carve (carve g a 4) (a.1, a.2 + 1) 1) c &&& 4 = cellAt g c &&& 4 :=
        hval c 4 (fun hx => absurd hx hca) (fun _ => by decide)
      have hc1 : cellAt (carve (carve g a 4) (a.1, a.2 + 1) 1) (c.1, c.2 + 1) &&& 1 =
          cellAt g (c.1, c.2 + 1) &&& 1 := by
        refine hval _ 1 (fun _ => by decide) (fun hx => ?_)
        exfalso
        apply hca
        have h1 := congrArg Prod.fst hx
        have h2 := congrArg Prod.snd hx
        simp at h1 h2
        exact Prod.ext_iff.mpr ⟨h1, h2⟩
      rw [hc4, hc1]
      exact (hm c).2

/-! ### The carving-loop invariant -/

theorem unvisitedNeighbors_mem_spec {w h : Nat} {vis : Finset Cell} {c : Cell}
    {wall opp : Nat} {nxi nyi : Int}
    (ht : ((wall, nxi, nyi, opp) : Nat × Int × Int × Nat) ∈ unvisitedNeighbors w h vis c) :
    ∃ dx dy : Int, ((wall, dx, dy, opp) : Nat × Int × Int × Nat) ∈ DIRECTIONS ∧
      nxi = c.1 + dx ∧ nyi = c.2 + dy ∧ InBox w h (nxi, nyi) ∧ (nxi, nyi) ∉ vis := by
  unfold unvisitedNeighbors at ht
  rcases List.mem_filterMap.mp ht with ⟨d, hd, hsome⟩
  obtain ⟨wall', dx, dy, opp'⟩ := d
  simp only at hsome
  split at hsome
  · rename_i hcond
    obtain ⟨b1, b2, b3, b4, b5⟩ := hcond
    injection hsome with h0
    injection h0 with h1 h2
    injection h2 with h2 h3
    injection h3 with h3 h4
    subst h1
    subst h4
    subst h2
    subst h3
    exact ⟨dx, dy, hd, rfl, rfl, ⟨b1, b2, b3, b4⟩, b5⟩
  · exact absurd hsome (by simp)

theorem unvisitedNeighbors_nil {w h : Nat} {vis : Finset Cell} {c : Cell}
    (hnil : unvisitedNeighbors w h vis c = []) :
    ∀ d ∈ DIRECTIONS, InBox w h (c.1 + d.2.1, c.2 + d.2.2.1) →
      (c.1 + d.2.1, c.2 + d.2.2.1) ∈ vis := by
  intro d hd hbox
  by_contra hnv
  obtain ⟨b1, b2, b3, b4⟩ := hbox
  have hmem : ((d.1, c.1 + d.2.1, c.2 + d.2.2.1, d.2.2.2) : Nat × Int × Int × Nat) ∈
      unvisitedNeighbors w h vis c := by
    unfold unvisitedNeighbors
    apply List.mem_filterMap.mpr
    refine ⟨d, hd, ?_⟩
    obtain ⟨wall, dx, dy, opp⟩ := d
    simp only
    rw [if_pos ⟨b1, b2, b3, b4, hnv⟩]
  rw [hnil] at hmem
  simp at hmem

theorem getD_mem_of_mem {α : Type} (l : List α) (i : Nat) (d : α) (hd : d ∈ l) :
    l.getD i d ∈ l := by
  rcases Nat.lt_or_ge i l.length with hlt | hge
  · rw [List.getD_eq_getElem _ _ hlt]
    exact List.getElem_mem hlt
  · rw [List.getD_eq_default _ _ hge]
    exact hd

/-- Everything the carving loop maintains. -/
structure GenInv (w h : Nat) (pattern : Finset Cell) (st : GenSt) : Prop where
  shape : GridShape st.grid w h
  visBox : ∀ c ∈ st.visited, InBox w h c ∨ c ∈ pattern
  patternVis : pattern ⊆ st.visited
  stackVis : ∀ c ∈ st.stack, c ∈ st.visited
  stackBox : ∀ c ∈ st.stack, InBox w h c
  stackPat : ∀ c ∈ st.stack, c ∉ pattern
  stackNodup : st.stack.Nodup
  unvisited15 : ∀ c : Cell, c ∉ st.visited → cellAt st.grid c = 15
  pattern15 : ∀ c ∈ pattern, cellAt st.grid c = 15
  mirror : Mirrored st.grid
  processed : ∀ c ∈ st.visited, c ∉ pattern → c ∉ st.stack →
    ∀ d ∈ DIRECTIONS, InBox w h (c.1 + d.2.1, c.2 + d.2.2.1) →
      (c.1 + d.2.1, c.2 + d.2.2.1) ∈ st.visited
  tree : GrowsTree (st.visited \ pattern) (openEdges w h st.grid)

/-- Carving the wall named by a `DIRECTIONS` entry between the current cell
and a fresh (still fully walled) neighbour adds exactly one open edge-pair
and keeps walls mirrored. -/
theorem openEdges_carve_pair {g : Grid} {w h : Nat} (hs : GridShape g w h)
    {c n : Cell} (hc : InBox w h c) (hn : InBox w h n)
    {wall opp : Nat} {dx dy : Int}
    (hdir : ((wall, dx, dy, opp) : Nat × Int × Int × Nat) ∈ DIRECTIONS)
    (hn_eq : n = (c.1 + dx, c.2 + dy)) (hn15 : cellAt g n = 15)
    (hm : Mirrored g) :
    ∃ e : Cell × Cell, (e = (c, n) ∨ e = (n, c)) ∧
      openEdges w h (carve (carve g c wall) n opp) = insert e (openEdges w h g) ∧
      e ∉ openEdges w h g ∧
      Mirrored (carve (carve g c wall) n opp) := by
  have g1 : n.1 = c.1 + dx := congrArg Prod.fst hn_eq
  have g2 : n.2 = c.2 + dy := congrArg Prod.snd hn_eq
  simp only [DIRECTIONS, List.mem_cons, List.not_mem_nil, or_false] at hdir
  rcases hdir with h3 | h3 | h3 | h3 <;>
    (injection h3 with e1 e2; injection e2 with e2 e3; injection e3 with e3 e4;
     subst e1; subst e4; subst e2; subst e3)
  · -- north: wall 1, opp 4; the fresh cell is above, so carve it south-wise
    have hc_eq : c = ((n.1, n.2 + 1) : Cell) :=
      Prod.ext_iff.mpr ⟨by omega, by omega⟩
    subst hc_eq
    have hcn' : ((n.1, n.2 + 1) : Cell) ≠ n := by
      intro he
      have h2 : n.2 + 1 = n.2 := congrArg Prod.snd he
      omega
    rw [carve_comm hs hc hn hcn' 1 4]
    have hfresh : cellAt g n &&& 4 ≠ 0 ∨ cellAt g (n.1, n.2 + 1) &&& 1 ≠ 0 := by
      left
      rw [hn15]
      decide
    obtain ⟨hupd, hnot⟩ := openEdges_carve_south hs hn hc hfresh
    exact ⟨(n, (n.1, n.2 + 1)), Or.inr rfl, hupd, hnot,
      mirrored_carve_south hs hn hc hm⟩
  · -- east: wall 2, opp 8
    have hn_eq' : n = (((c.1 + 1 : Int), c.2) : Cell) :=
      Prod.ext_iff.mpr ⟨by omega, by omega⟩
    subst hn_eq'
    have hfresh : cellAt g c &&& 2 ≠ 0 ∨ cellAt g (c.1 + 1, c.2) &&& 8 ≠ 0 := by
      right
      rw [hn15]
      decide
    obtain ⟨hupd, hnot⟩ := openEdges_carve_east hs hc hn hfresh
    exact ⟨(c, ((c.1 + 1 : Int), c.2)), Or.inl rfl, hupd, hnot,
      mirrored_carve_east hs hc hn hm⟩
  · -- south: wall 4, opp 1
    have hn_eq' : n = ((c.1, (c.2 + 1 : Int)) : Cell) :=
      Prod.ext_iff.mpr ⟨by omega, by omega⟩
    subst hn_eq'
    have hfresh : cellAt g c &&& 4 ≠ 0 ∨ cellAt g (c.1, c.2 + 1) &&& 1 ≠ 0 := by
      right
      rw [hn15]
      decide
    obtain ⟨hupd, hnot⟩ := openEdges_carve_south hs hc hn hfresh
    exact ⟨(c, (c.1, (c.2 + 1 : Int))), Or.inl rfl, hupd, hnot,
      mirrored_carve_south hs hc hn hm⟩
  · -- west: wall 8, opp 2; the fresh cell is to the left
    have hc_eq : c = (((n.1 + 1 : Int), n.2) : Cell) :=
      Prod.ext_iff.mpr ⟨by omega, by omega⟩
    subst hc_eq
    have hcn' : (((n.1 + 1 : Int), n.2) : Cell) ≠ n := by
      intro he
      have h2 : n.1 + 1 = n.1 := congrArg Prod.fst he
      omega
    rw [carve_comm hs hc hn hcn' 8 2]
    have hfresh : cellAt g n &&& 2 ≠ 0 ∨ cellAt g (n.1 + 1, n.2) &&& 8 ≠ 0 := by
      left
      rw [hn15]
      decide
    obtain ⟨hupd, hnot⟩ := openEdges_carve_east hs hn hc hfresh
    exact ⟨(n, ((n.1 + 1 : Int), n.2)), Or.inr rfl, hupd, hnot,
      mirrored_carve_east hs hn hc hm⟩

theorem genInv_pop {w h : Nat} {pattern : Finset Cell} {st : GenSt}
    (hinv : GenInv w h pattern st) {cx cy : Int} {rest : List Cell}
    (hstack : st.stack = (cx, cy) :: rest)
    (hnil : unvisitedNeighbors w h st.visited (cx, cy) = []) :
    GenInv w h pattern ⟨st.grid, st.visited, rest, st.pos⟩ := by
  have hsub : ∀ z ∈ rest, z ∈ st.stack := by
    intro z hz
    rw [hstack]
    exact List.mem_cons_of_mem _ hz
  refine ⟨hinv.shape, hinv.visBox, hinv.patternVis, ?_, ?_, ?_, ?_,
    hinv.unvisited15, hinv.pattern15, hinv.mirror, ?_, hinv.tree⟩
  · exact fun z hz => hinv.stackVis z (hsub z hz)
  · exact fun z hz => hinv.stackBox z (hsub z hz)
  · exact fun z hz => hinv.stackPat z (hsub z hz)
  · have := hinv.stackNodup
    rw [hstack] at this
    exact this.of_cons
  · intro z hz hzp hzs d hd hbox
    by_cases hzeq : z = ((cx, cy) : Cell)
    · subst hzeq
      exact unvisitedNeighbors_nil hnil d hd hbox
    · refine hinv.processed z hz hzp ?_ d hd hbox
      rw [hstack]
      intro hmem
      rcases List.mem_cons.mp hmem with he | he
      · exact hzeq he
      · exact hzs he

theorem genInv_push {w h : Nat} {pattern : Finset Cell} {st : GenSt}
    (hinv : GenInv w h pattern st) {cx cy : Int} {rest : List Cell}
    (hstack : st.stack = (cx, cy) :: rest)
    {wall opp : Nat} {nx ny : Int}
    (hpick : ((wall, nx, ny, opp) : Nat × Int × Int × Nat) ∈
      unvisitedNeighbors w h st.visited (cx, cy)) :
    GenInv w h pattern
      ⟨carve (carve st.grid (cx, cy) wall) (nx, ny) opp,
        insert (nx, ny) st.visited, (nx, ny) :: st.stack, st.pos + 1⟩ := by
  obtain ⟨dx, dy, hdir, hnx, hny, hnbox, hnvis⟩ := unvisitedNeighbors_mem_spec hpick
  have hcstack : ((cx, cy) : Cell) ∈ st.stack := by
    rw [hstack]
    exact List.mem_cons_self _ _
  have hcbox : InBox w h (cx, cy) := hinv.stackBox _ hcstack
  have hcvis : ((cx, cy) : Cell) ∈ st.visited := hinv.stackVis _ hcstack
  have hcpat : ((cx, cy) : Cell) ∉ pattern := hinv.stackPat _ hcstack
  have hnpat : ((nx, ny) : Cell) ∉ pattern := fun hp => hnvis (hinv.patternVis hp)
  have hn15 : cellAt st.grid (nx, ny) = 15 := hinv.unvisited15 _ hnvis
  have hn_eq : ((nx, ny) : Cell) = ((cx, cy).1 + dx, (cx, cy).2 + dy) :=
    Prod.ext_iff.mpr ⟨hnx, hny⟩
  obtain ⟨e, he_or, hupd, hnot, hmir⟩ :=
    openEdges_carve_pair hinv.shape hcbox hnbox hdir hn_eq hn15 hinv.mirror
  have hshape2 := gridShape_carve2 hinv.shape ((cx, cy) : Cell) ((nx, ny) : Cell) wall opp
  have hcn : ((nx, ny) : Cell) ≠ (cx, cy) := fun he => hnvis (he ▸ hcvis)
  refine ⟨hshape2, ?_, ?_, ?_, ?_, ?_, ?_, ?_, ?_, hmir, ?_, ?_⟩
  · intro z hz
    rcases Finset.mem_insert.mp hz with rfl | hz'
    · exact Or.inl hnbox
    · exact hinv.visBox z hz'
  · exact fun z hz => Finset.mem_insert_of_mem (hinv.patternVis hz)
  · intro z hz
    rcases List.mem_cons.mp hz with rfl | hz'
    · exact Finset.mem_insert_self _ _
    · exact Finset.mem_insert_of_mem (hinv.stackVis z hz')
  · intro z hz
    rcases List.mem_cons.mp hz with rfl | hz'
    · exact hnbox
    · exact hinv.stackBox z hz'
  · intro z hz
    rcases List.mem_cons.mp hz with rfl | hz'
    · exact hnpat
    · exact hinv.stackPat z hz'
  · refine List.Nodup.cons ?_ hinv.stackNodup
    intro hmem
    exact hnvis (hinv.stackVis _ hmem)
  · intro z hz
    have hz1 : z ∉ st.visited := fun hzz => hz (Finset.mem_insert_of_mem hzz)
    have hz2 : z ≠ ((nx, ny) : Cell) := fun hzz => hz (hzz ▸ Finset.mem_insert_self _ _)
    have hz3 : z ≠ ((cx, cy) : Cell) := fun hzz => hz1 (hzz ▸ hcvis)
    rw [cellAt_carve2_other hinv.shape hcbox hnbox wall opp hz3 hz2]
    exact hinv.unvisited15 z hz1
  · intro z hz
    have hz2 : z ≠ ((nx, ny) : Cell) := fun hzz => hnpat (hzz ▸ hz)
    have hz3 : z ≠ ((cx, cy) : Cell) := fun hzz => hcpat (hzz ▸ hz)
    rw [cellAt_carve2_other hinv.shape hcbox hnbox wall opp hz3 hz2]
    exact hinv.pattern15 z hz
  · intro z hz hzp hzs d hd hbox
    have hz2 : z ≠ ((nx, ny) : Cell) := by
      intro hzz
      exact hzs (hzz ▸ List.mem_cons_self _ _)
    have hz1 : z ∈ st.visited := by
      rcases Finset.mem_insert.mp hz with rfl | hz'
      · exact absurd rfl hz2
      · exact hz'
    have hzs' : z ∉ st.stack := fun hmem => hzs (List.mem_cons_of_mem _ hmem)
    exact Finset.mem_insert_of_mem (hinv.processed z hz1 hzp hzs' d hd hbox)
  · rw [hupd]
    have hsd : insert ((nx, ny) : Cell) st.visited \ pattern =
        insert ((nx, ny) : Cell) (st.visited \ pattern) := by
      ext z
      simp only [Finset.mem_sdiff, Finset.mem_insert]
      constructor
      · rintro ⟨rfl | hz, hzp⟩
        · exact Or.inl rfl
        · exact Or.inr ⟨hz, hzp⟩
      · rintro (rfl | ⟨hz, hzp⟩)
        · exact ⟨Or.inl rfl, hnpat⟩
        · exact ⟨Or.inr hz, hzp⟩
    rw [hsd]
    refine GrowsTree.grow ((cx, cy) : Cell) ((nx, ny) : Cell) e hinv.tree ?_ ?_ he_or hnot
    · exact Finset.mem_sdiff.mpr ⟨hcvis, hcpat⟩
    · intro hmem
      exact hnvis (Finset.mem_sdiff.mp hmem).1

theorem genInv_init (w h : Nat) (pattern : Finset Cell) (start : Cell) (pos : Nat)
    (hsb : InBox w h start) (hsp : start ∉ pattern) :
    GenInv w h pattern ⟨initGrid w h, insert start pattern, [start], pos⟩ := by
  refine ⟨gridShape_initGrid w h, ?_, ?_, ?_, ?_, ?_, ?_, ?_, ?_,
    mirrored_initGrid w h, ?_, ?_⟩
  · intro c hc
    rcases Finset.mem_insert.mp hc with rfl | hcp
    · exact Or.inl hsb
    · exact Or.inr hcp
  · exact fun c hc => Finset.mem_insert_of_mem hc
  · intro c hc
    rw [List.mem_singleton] at hc
    subst hc
    exact Finset.mem_insert_self _ _
  · intro c hc
    rw [List.mem_singleton] at hc
    subst hc
    exact hsb
  · intro c hc
    rw [List.mem_singleton] at hc
    subst hc
    exact hsp
  · exact List.nodup_singleton _
  · intro c _
    exact cellAt_initGrid w h c
  · intro c _ 
    exact cellAt_initGrid w h c
  · intro c hc hcp hcs d hd hbox
    exfalso
    rcases Finset.mem_insert.mp hc with rfl | hcp'
    · exact hcs (List.mem_singleton.mpr rfl)
    · exact hcp hcp'
  · have hv : insert start pattern \ pattern = {start} := by
      ext z
      simp only [Finset.mem_sdiff, Finset.mem_insert, Finset.mem_singleton]
      constructor
      · rintro ⟨hz | hz, hzp⟩
        · exact hz
        · exact absurd hz hzp
      · rintro rfl
        exact ⟨Or.inl rfl, hsp⟩
    rw [hv, openEdges_initGrid]
    exact GrowsTree.single start

theorem genLoop_post (w h : Nat) (pattern : Finset Cell) (tape : Nat → Nat) :
    ∀ (fuel : Nat) (st : GenSt), GenInv w h pattern st →
      ∀ st', genLoop w h tape fuel st = some st' →
        GenInv w h pattern st' ∧ st'.stack = [] ∧ st.visited ⊆ st'.visited := by
  intro fuel
  induction fuel with
  | zero =>
    intro st hinv st' hres
    simp [genLoop] at hres
  | succ fuel ih =>
    intro st hinv st' hres
    rcases hstack : st.stack with _ | ⟨⟨cx, cy⟩, rest⟩
    · rw [genLoop, hstack] at hres
      simp only at hres
      simp only [Option.some.injEq] at hres
      subst hres
      exact ⟨hinv, hstack, Finset.Subset.refl _⟩
    · rcases hunv : unvisitedNeighbors w h st.visited (cx, cy) with _ | ⟨u, us⟩
      · rw [genLoop, hstack] at hres
        simp only at hres
        rw [hunv] at hres
        simp only at hres
        have hpop := genInv_pop hinv hstack hunv
        have hres' : genLoop w h tape fuel ⟨st.grid, st.visited, rest, st.pos⟩ = some st' := hres
        obtain ⟨hi, hstk, hsub⟩ := ih _ hpop st' hres'
        exact ⟨hi, hstk, hsub⟩
      · rcases hgd : (u :: us).getD (tape st.pos % (u :: us).length) u with
          ⟨wall, nx, ny, opp⟩
        rw [genLoop, hstack] at hres
        simp only at hres
        rw [hunv] at hres
        simp only at hres
        rw [hgd] at hres
        simp only at hres
        have hpick : ((wall, nx, ny, opp) : Nat × Int × Int × Nat) ∈
            unvisitedNeighbors w h st.visited (cx, cy) := by
          rw [← hgd, hunv]
          exact getD_mem_of_mem _ _ _ (List.mem_cons_self _ _)
        have hpush := genInv_push hinv hstack hpick
        rw [← hstack] at hres
        obtain ⟨hi, hstk, hsub⟩ := ih _ hpush st' hres
        refine ⟨hi, hstk, fun z hz => hsub (Finset.mem_insert_of_mem hz)⟩

def genMeasure (w h : Nat) (st : GenSt) : Nat :=
  st.stack.length + 2 * ((boxFinset w h) \ st.visited).card

theorem genLoop_fuel (w h : Nat) (tape : Nat → Nat) :
    ∀ (fuel : Nat) (st : GenSt), genMeasure w h st < fuel →
      (genLoop w h tape fuel st).isSome := by
  intro fuel
  induction fuel with
  | zero =>
    intro st hm
    omega
  | succ fuel ih =>
    intro st hm
    rcases hstack : st.stack with _ | ⟨⟨cx, cy⟩, rest⟩
    · rw [genLoop, hstack]
      rfl
    · rcases hunv : unvisitedNeighbors w h st.visited (cx, cy) with _ | ⟨u, us⟩
      · rw [genLoop, hstack]
        dsimp only
        rw [hunv]
        dsimp only
        apply ih
        show rest.length + 2 * ((boxFinset w h) \ st.visited).card < fuel
        unfold genMeasure at hm
        rw [hstack] at hm
        simp only [List.length_cons] at hm
        omega
      · rcases hgd : (u :: us).getD (tape st.pos % (u :: us).length) u with
          ⟨wall, nx, ny, opp⟩
        rw [genLoop, hstack]
        simp only
        rw [hunv]
        simp only
        rw [hgd]
        simp only
        apply ih
        have hpick : ((wall, nx, ny, opp) : Nat × Int × Int × Nat) ∈
            unvisitedNeighbors w h st.visited (cx, cy) := by
          rw [← hgd, hunv]
          exact getD_mem_of_mem _ _ _ (List.mem_cons_self _ _)
        obtain ⟨dx, dy, hdir, hnx, hny, hnbox, hnvis⟩ := unvisitedNeighbors_mem_spec hpick
        have hnmem : ((nx, ny) : Cell) ∈ (boxFinset w h) \ st.visited :=
          Finset.mem_sdiff.mpr ⟨mem_boxFinset.mpr hnbox, hnvis⟩
        have hsdiff : (boxFinset w h) \ insert ((nx, ny) : Cell) st.visited =
            ((boxFinset w h) \ st.visited).erase ((nx, ny) : Cell) := by
          ext z
          simp only [Finset.mem_sdiff, Finset.mem_insert, Finset.mem_erase]
          tauto
        show ((nx, ny) :: (cx, cy) :: rest).length +
          2 * ((boxFinset w h) \ insert ((nx, ny) : Cell) st.visited).card < fuel
        unfold genMeasure at hm
        rw [hstack] at hm
        simp only [List.length_cons] at hm ⊢
        rw [hsdiff, Finset.card_erase_of_mem hnmem]
        have hpos : 0 < ((boxFinset w h) \ st.visited).card :=
          Finset.card_pos.mpr ⟨_, hnmem⟩
        omega

theorem findStart_origin {w h : Nat} (hw : 0 < w) (hh : 0 < h)
    {vis : Finset Cell} (hv : ((0 : Int), (0 : Int)) ∉ vis) :
    findStart w h vis = (0, 0) := by
  obtain ⟨w', rfl⟩ : ∃ w', w = w' + 1 := ⟨w - 1, by omega⟩
  obtain ⟨h', rfl⟩ : ∃ h', h = h' + 1 := ⟨h - 1, by omega⟩
  have hshape : ∃ rest, rowMajorCells (w' + 1) (h' + 1) =
      ((0 : Int), (0 : Int)) :: rest := by
    unfold rowMajorCells
    rw [List.range_succ_eq_map, List.flatMap_cons, List.range_succ_eq_map,
      List.map_cons, List.cons_append]
    exact ⟨_, rfl⟩
  obtain ⟨rest, hrest⟩ := hshape
  unfold findStart
  rw [hrest, List.find?_cons_of_pos _ (by simp only [decide_eq_true_eq]; exact hv)]
  rfl

theorem origin_not_pattern (w h : Nat) :
    ((0 : Int), (0 : Int)) ∉ get_42_pattern_cells w h := by
  unfold get_42_pattern_cells
  split
  · simp
  · rename_i hcond
    push_neg at hcond
    intro hmem
    rw [List.mem_toFinset] at hmem
    rcases List.mem_map.mp hmem with ⟨o, ho, heq⟩
    have h1 : ((w : Int) - 7) / 2 + o.1 = 0 := congrArg Prod.fst heq
    have h2 : ((h : Int) - 5) / 2 + o.2 = 0 := congrArg Prod.snd heq
    have hoff : 0 ≤ o.1 ∧ 0 ≤ o.2 := by
      have hall : ∀ p ∈ pattern_offsets, 0 ≤ p.1 ∧ 0 ≤ p.2 := by decide
      exact hall o ho
    have hw9 : 9 ≤ w := hcond.1
    have hanch : 1 ≤ ((w : Int) - 7) / 2 := by
      have h2w : (2 : Int) ≤ (w : Int) - 7 := by
        have : (9 : Int) ≤ (w : Int) := by exact_mod_cast hw9
        omega
      omega
    omega

theorem pattern_mem_pos {w h : Nat} {c : Cell}
    (hc : c ∈ get_42_pattern_cells w h) : 1 ≤ c.1 ∧ 1 ≤ c.2 := by
  unfold get_42_pattern_cells at hc
  split at hc
  · simp at hc
  · rename_i hcond
    push_neg at hcond
    rw [List.mem_toFinset] at hc
    rcases List.mem_map.mp hc with ⟨o, ho, heq⟩
    have hoff : 0 ≤ o.1 ∧ 0 ≤ o.2 := by
      have hall : ∀ p ∈ pattern_offsets, 0 ≤ p.1 ∧ 0 ≤ p.2 := by decide
      exact hall o ho
    have hw9 : 9 ≤ w := hcond.1
    have hh7 : 7 ≤ h := hcond.2
    have hanch1 : 1 ≤ ((w : Int) - 7) / 2 := by
      have : (9 : Int) ≤ (w : Int) := by exact_mod_cast hw9
      omega
    have hanch2 : 1 ≤ ((h : Int) - 5) / 2 := by
      have : (7 : Int) ≤ (h : Int) := by exact_mod_cast hh7
      omega
    have h1 : ((w : Int) - 7) / 2 + o.1 = c.1 := congrArg Prod.fst heq
    have h2 : ((h : Int) - 5) / 2 + o.2 = c.2 := congrArg Prod.snd heq
    omega

/-- Running `generate` reaches a final loop state satisfying the invariant
with an empty stack, containing the origin among its visited cells. -/
theorem generate_spec (width height : Nat) (seed : Option Int)
    (seedTape : Int → Nat → Nat) (rng : RandomState)
    (hw : 0 < width) (hh : 0 < height) :
    ∃ st' : GenSt,
      generate width height seed seedTape rng = st'.grid ∧
      GenInv width height (get_42_pattern_cells width height) st' ∧
      st'.stack = [] ∧ ((0 : Int), (0 : Int)) ∈ st'.visited := by
  have hop := origin_not_pattern width height
  have hstart : findStart width height (get_42_pattern_cells width height) = (0, 0) :=
    findStart_origin hw hh hop
  have hobox : InBox width height ((0 : Int), (0 : Int)) := by
    refine ⟨le_refl 0, ?_, le_refl 0, ?_⟩
    · show (0 : Int) < (width : Int)
      exact_mod_cast hw
    · show (0 : Int) < (height : Int)
      exact_mod_cast hh
  have hinv0 : ∀ pos : Nat, GenInv width height (get_42_pattern_cells width height)
      ⟨initGrid width height,
        insert (findStart width height (get_42_pattern_cells width height))
          (get_42_pattern_cells width height),
        [findStart width height (get_42_pattern_cells width height)], pos⟩ := by
    intro pos
    rw [hstart]
    exact genInv_init _ _ _ _ _ hobox hop
  have hmeas : ∀ pos : Nat, genMeasure width height
      ⟨initGrid width height,
        insert (findStart width height (get_42_pattern_cells width height))
          (get_42_pattern_cells width height),
        [findStart width height (get_42_pattern_cells width height)], pos⟩ <
      2 * (width * height) + 2 := by
    intro pos
    show ([findStart width height (get_42_pattern_cells width height)].length)
      + 2 * ((boxFinset width height \ _).card) < 2 * (width * height) + 2
    have hcard : (boxFinset width height \
        insert (findStart width height (get_42_pattern_cells width height))
          (get_42_pattern_cells width height)).card ≤ width * height := by
      calc (boxFinset width height \ _).card
          ≤ (boxFinset width height).card := Finset.card_le_card (Finset.sdiff_subset)
        _ = width * height := card_boxFinset width height
    simp only [List.length_singleton]
    omega
  unfold generate
  simp only
  generalize hrng : (match seed with
    | some s => RandomState.mk (seedTape s) 0
    | none => rng) = rng'
  have hsome := genLoop_fuel width height rng'.tape (2 * (width * height) + 2) _ (hmeas rng'.pos)
  obtain ⟨st', hres⟩ := Option.isSome_iff_exists.mp hsome
  obtain ⟨hi, hstk, hsub⟩ := genLoop_post width height
    (get_42_pattern_cells width height) rng'.tape _ _ (hinv0 rng'.pos) st' hres
  refine ⟨st', ?_, hi, hstk, ?_⟩
  · rw [hres]
  · apply hsub
    rw [hstart]
    exact Finset.mem_insert_self _ _

/-- If a visited set contains the origin and is closed under in-bounds
neighbour steps, it covers the whole box. -/
theorem box_subset_visited {w h : Nat} (vis : Finset Cell)
    (hstart : ((0 : Int), (0 : Int)) ∈ vis)
    (hclosed : ∀ c ∈ vis, ∀ d ∈ DIRECTIONS,
      InBox w h (c.1 + d.2.1, c.2 + d.2.2.1) → (c.1 + d.2.1, c.2 + d.2.2.1) ∈ vis) :
    ∀ c : Cell, InBox w h c → c ∈ vis := by
  suffices hsuff : ∀ n : Nat, ∀ c : Cell, InBox w h c → (c.1 + c.2).toNat = n → c ∈ vis by
    intro c hc
    exact hsuff _ c hc rfl
  intro n
  induction n using Nat.strong_induction_on with
  | _ n ihn =>
    intro c hc hn
    obtain ⟨hx0, hxw, hy0, hyh⟩ := hc
    by_cases hx : c.1 = 0
    · by_cases hy : c.2 = 0
      · have hco : c = ((0 : Int), (0 : Int)) := Prod.ext_iff.mpr ⟨hx, hy⟩
        rw [hco]
        exact hstart
      · have hprev : InBox w h ((c.1, c.2 - 1) : Cell) := by
          refine ⟨?_, ?_, ?_, ?_⟩
          · show (0 : Int) ≤ c.1
            omega
          · show c.1 < (w : Int)
            omega
          · show (0 : Int) ≤ c.2 - 1
            omega
          · show c.2 - 1 < (h : Int)
            omega
        have hpm : ((c.1, c.2 - 1) : Cell) ∈ vis :=
          ihn ((c.1 + (c.2 - 1)).toNat) (by omega) _ hprev rfl
        have hdir : ((4, 0, 1, 1) : Nat × Int × Int × Nat) ∈ DIRECTIONS := by decide
        have hbox : InBox w h ((c.1 + 0 : Int), (c.2 - 1 + 1 : Int)) := by
          refine ⟨?_, ?_, ?_, ?_⟩
          · show (0 : Int) ≤ c.1 + 0
            omega
          · show c.1 + 0 < (w : Int)
            omega
          · show (0 : Int) ≤ c.2 - 1 + 1
            omega
          · show c.2 - 1 + 1 < (h : Int)
            omega
        have h2 : ((c.1 + 0 : Int), (c.2 - 1 + 1 : Int)) ∈ vis :=
          hclosed _ hpm _ hdir hbox
        have hceq : (((c.1 + 0 : Int), (c.2 - 1 + 1 : Int)) : Cell) = c :=
          Prod.ext_iff.mpr ⟨by omega, by omega⟩
        rw [hceq] at h2
        exact h2
    · have hprev : InBox w h ((c.1 - 1, c.2) : Cell) := by
        refine ⟨?_, ?_, ?_, ?_⟩
        · show (0 : Int) ≤ c.1 - 1
          omega
        · show c.1 - 1 < (w : Int)
          omega
        · show (0 : Int) ≤ c.2
          omega
        · show c.2 < (h : Int)
          omega
      have hpm : ((c.1 - 1, c.2) : Cell) ∈ vis :=
        ihn ((c.1 - 1 + c.2).toNat) (by omega) _ hprev rfl
      have hdir : ((2, 1, 0, 8) : Nat × Int × Int × Nat) ∈ DIRECTIONS := by decide
      have hbox : InBox w h ((c.1 - 1 + 1 : Int), (c.2 + 0 : Int)) := by
        refine ⟨?_, ?_, ?_, ?_⟩
        · show (0 : Int) ≤ c.1 - 1 + 1
          omega
        · show c.1 - 1 + 1 < (w : Int)
          omega
        · show (0 : Int) ≤ c.2 + 0
          omega
        · show c.2 + 0 < (h : Int)
          omega
      have h2 : ((c.1 - 1 + 1 : Int), (c.2 + 0 : Int)) ∈ vis :=
        hclosed _ hpm _ hdir hbox
      have hceq : (((c.1 - 1 + 1 : Int), (c.2 + 0 : Int)) : Cell) = c :=
        Prod.ext_iff.mpr ⟨by omega, by omega⟩
      rw [hceq] at h2
      exact h2

/-- C5: for widths ≥ 9 and heights ≥ 7 the Reserved Set is exactly the 20
offsets translated by the anchor `((width-7)//2, (height-5)//2)` and has
cardinality 20; below those sizes it is empty; and after `generate` every
reserved cell's wall mask is still 15. -/
theorem pattern_cells_spec (width height : Nat) :
    (9 ≤ width → 7 ≤ height →
      get_42_pattern_cells width height =
        (pattern_offsets.map fun o =>
          (((width : Int) - 7) / 2 + o.1, ((height : Int) - 5) / 2 + o.2)).toFinset ∧
      (get_42_pattern_cells width height).card = 20) ∧
    ((width < 9 ∨ height < 7) → get_42_pattern_cells width height = ∅) ∧
    (∀ (seed : Option Int) (seedTape : Int → Nat → Nat) (rng : RandomState),
      ∀ c ∈ get_42_pattern_cells width height,
        cellAt (generate width height seed seedTape rng) c = 15) := by
  refine ⟨?_, ?_, ?_⟩
  · intro hw9 hh7
    have hcond : ¬ (width < 9 ∨ height < 7) := by omega
    constructor
    · unfold get_42_pattern_cells
      rw [if_neg hcond]
    · unfold get_42_pattern_cells
      rw [if_neg hcond]
      have hinj : Function.Injective (fun o : Int × Int =>
          ((((width : Int) - 7) / 2 + o.1, ((height : Int) - 5) / 2 + o.2) : Cell)) := by
        intro o1 o2 heq
        have e1 : ((width : Int) - 7) / 2 + o1.1 = ((width : Int) - 7) / 2 + o2.1 :=
          congrArg Prod.fst heq
        have e2 : ((height : Int) - 5) / 2 + o1.2 = ((height : Int) - 5) / 2 + o2.2 :=
          congrArg Prod.snd heq
        exact Prod.ext_iff.mpr ⟨by omega, by omega⟩
      have hnodup : (pattern_offsets.map fun o : Int × Int =>
          ((((width : Int) - 7) / 2 + o.1, ((height : Int) - 5) / 2 + o.2) : Cell)).Nodup := by
        refine List.Nodup.map hinj ?_
        decide
      rw [List.toFinset_card_of_nodup hnodup, List.length_map]
      rfl
  · intro hlt
    unfold get_42_pattern_cells
    rw [if_pos hlt]
  · intro seed seedTape rng c hc
    have hsz : 9 ≤ width ∧ 7 ≤ height := by
      by_contra hcon
      have : width < 9 ∨ height < 7 := by omega
      rw [show get_42_pattern_cells width height = ∅ by
        unfold get_42_pattern_cells
        rw [if_pos this]] at hc
      simp at hc
    obtain ⟨st', hgrid, hinv, hstk, horig⟩ :=
      generate_spec width height seed seedTape rng (by omega) (by omega)
    rw [hgrid]
    exact hinv.pattern15 c hc

/-- Witness for C5 at concrete sizes 9×7 (pattern present) and 3×3 (too
small), including the preserved mask of the concrete reserved cell (1, 1). -/
theorem pattern_cells_spec_witness :
    (get_42_pattern_cells 9 7).card = 20 ∧
    get_42_pattern_cells 3 3 = ∅ ∧
    cellAt (generate 9 7 (some 42) (fun _ _ => 0) (RandomState.mk (fun _ => 0) 0))
      ((1 : Int), (1 : Int)) = 15 := by
  refine ⟨((pattern_cells_spec 9 7).1 (by norm_num) (by norm_num)).2,
    (pattern_cells_spec 3 3).2.1 (by norm_num),
    (pattern_cells_spec 9 7).2.2 (some 42) (fun _ _ => 0) (RandomState.mk (fun _ => 0) 0)
      ((1 : Int), (1 : Int)) (by decide)⟩

/-- C6: in any generated grid, walls between adjacent cells are mirrored:
for each direction entry `(wall, dx, dy, opp)`, a cell's `wall` bit is
clear exactly when the `(dx, dy)` neighbour's `opp` bit is clear.  (Both
bits start set and are cleared together by the same carve.) -/
theorem generate_walls_mirrored (width height : Nat) (seed : Option Int)
    (seedTape : Int → Nat → Nat) (rng : RandomState)
    (hw : 0 < width) (hh : 0 < height) :
    ∀ (c : Cell) (d : Nat × Int × Int × Nat), d ∈ DIRECTIONS →
      (cellAt (generate width height seed seedTape rng) c &&& d.1 = 0 ↔
        cellAt (generate width height seed seedTape rng)
          (c.1 + d.2.1, c.2 + d.2.2.1) &&& d.2.2.2 = 0) := by
  obtain ⟨st', hgrid, hinv, hstk, horig⟩ :=
    generate_spec width height seed seedTape rng hw hh
  rw [hgrid]
  have hm := hinv.mirror
  intro c d hd
  simp only [DIRECTIONS, List.mem_cons, List.not_mem_nil, or_false] at hd
  rcases hd with rfl | rfl | rfl | rfl
  · -- north: bit 1 of c vs bit 4 of the cell above
    have := (hm ((c.1, c.2 - 1) : Cell)).2
    have hceq : (((c.1, c.2 - 1).1, (c.1, c.2 - 1).2 + 1) : Cell) = c :=
      Prod.ext_iff.mpr ⟨rfl, by omega⟩
    rw [hceq] at this
    have hne : (((c.1, c.2 - 1)) : Cell) = (c.1 + 0, c.2 + -1) :=
      Prod.ext_iff.mpr ⟨by omega, by omega⟩
    rw [hne] at this
    exact this.symm
  · -- east
    have := (hm c).1
    have hne : ((c.1 + 1, c.2) : Cell) = (c.1 + 1, c.2 + 0) :=
      Prod.ext_iff.mpr ⟨rfl, by omega⟩
    rw [hne] at this
    exact this
  · -- south
    have := (hm c).2
    have hne : ((c.1, c.2 + 1) : Cell) = (c.1 + 0, c.2 + 1) :=
      Prod.ext_iff.mpr ⟨by omega, rfl⟩
    rw [hne] at this
    exact this
  · -- west: bit 8 of c vs bit 2 of the cell to the left
    have := (hm ((c.1 - 1, c.2) : Cell)).1
    have hceq : (((c.1 - 1, c.2).1 + 1, (c.1 - 1, c.2).2) : Cell) = c :=
      Prod.ext_iff.mpr ⟨by omega, rfl⟩
    rw [hceq] at this
    have hne : (((c.1 - 1, c.2)) : Cell) = (c.1 + -1, c.2 + 0) :=
      Prod.ext_iff.mpr ⟨by omega, by omega⟩
    rw [hne] at this
    exact this.symm

/-- Witness for C6 on a concrete 1×1 generation at the origin, northward. -/
theorem generate_walls_mirrored_witness :
    cellAt (generate 1 1 none (fun _ _ => 0) (RandomState.mk (fun _ => 0) 0))
        ((0 : Int), (0 : Int)) &&& 1 = 0 ↔
      cellAt (generate 1 1 none (fun _ _ => 0) (RandomState.mk (fun _ => 0) 0))
        ((0 : Int) + 0, (0 : Int) + -1) &&& 4 = 0 :=
  generate_walls_mirrored 1 1 none (fun _ _ => 0) (RandomState.mk (fun _ => 0) 0)
    (by norm_num) (by norm_num) ((0 : Int), (0 : Int)) ((1, 0, -1, 4)) (by decide)

/-! ### The open-passage graph and the spanning-tree theorem -/

/-- The open-passage graph on the in-bounds cells of a grid: two cells are
adjacent when the wall between them is open on both sides. -/
def mazeGraph (w h : Nat) (g : Grid) :
    SimpleGraph {c : Cell // c ∈ boxFinset w h} where
  Adj a b := (a.1, b.1) ∈ openEdges w h g ∨ (b.1, a.1) ∈ openEdges w h g
  symm := by
    intro a b hab
    rcases hab with hab | hab
    · exact Or.inr hab
    · exact Or.inl hab
  loopless := by
    intro a haa
    have hoe : openEdge g (a.1, a.1) := by
      rcases haa with haa | haa <;> exact (mem_openEdges.mp haa).2.2
    rcases hoe with ⟨hst, _, _⟩ | ⟨hst, _, _⟩
    · have h1 : a.1.1 = a.1.1 + 1 := congrArg Prod.fst hst
      omega
    · have h2 : a.1.2 = a.1.2 + 1 := congrArg Prod.snd hst
      omega

theorem reach_to_reachable {w h : Nat} {g : Grid} :
    ∀ {n : Nat} {x y : Cell}, EChain (openEdges w h g) n x y →
      ∀ (hx : x ∈ boxFinset w h) (hy : y ∈ boxFinset w h),
        (mazeGraph w h g).Reachable ⟨x, hx⟩ ⟨y, hy⟩ := by
  intro n x y hch
  induction hch with
  | refl a =>
    intro hx hy
    have hsub : (⟨a, hx⟩ : {c : Cell // c ∈ boxFinset w h}) = ⟨a, hy⟩ := Subtype.ext rfl
    rw [hsub]
  | head hs htail ih =>
    rename_i a mid cc m
    intro hx hy
    have hmidbox : mid ∈ boxFinset w h := by
      rcases hs with hs | hs
      · exact (mem_openEdges.mp hs).2.1
      · exact (mem_openEdges.mp hs).1
    have hadj : (mazeGraph w h g).Adj ⟨a, hx⟩ ⟨mid, hmidbox⟩ := hs
    exact (hadj.reachable).trans (ih hmidbox hy)

theorem walk_to_chain_avoid {w h : Nat} {g : Grid} (f : Cell × Cell)
    (hf1 : f.1 ∈ boxFinset w h) (hf2 : f.2 ∈ boxFinset w h) :
    ∀ {x y : {c : Cell // c ∈ boxFinset w h}} (p : (mazeGraph w h g).Walk x y),
      s(⟨f.1, hf1⟩, ⟨f.2, hf2⟩) ∉ p.edges →
      Reach ((openEdges w h g).erase f) x.1 y.1 := by
  intro x y p
  induction p with
  | nil =>
    intro _
    exact Reach.refl _ _
  | cons hadj p ih =>
    rename_i a b cc
    intro havoid
    rw [SimpleGraph.Walk.edges_cons, List.mem_cons] at havoid
    push_neg at havoid
    obtain ⟨hne_head, havoid'⟩ := havoid
    have hstep : (a.1, b.1) ∈ (openEdges w h g).erase f ∨
        (b.1, a.1) ∈ (openEdges w h g).erase f := by
      rcases hadj with hs | hs
      · refine Or.inl (Finset.mem_erase.mpr ⟨?_, hs⟩)
        intro heq
        apply hne_head
        have e1 : a.1 = f.1 := congrArg Prod.fst heq
        have e2 : b.1 = f.2 := congrArg Prod.snd heq
        have ha' : a = ⟨f.1, hf1⟩ := Subtype.ext e1
        have hb' : b = ⟨f.2, hf2⟩ := Subtype.ext e2
        rw [ha', hb']
      · refine Or.inr (Finset.mem_erase.mpr ⟨?_, hs⟩)
        intro heq
        apply hne_head
        have e1 : b.1 = f.1 := congrArg Prod.fst heq
        have e2 : a.1 = f.2 := congrArg Prod.snd heq
        have ha' : a = ⟨f.2, hf2⟩ := Subtype.ext e2
        have hb' : b = ⟨f.1, hf1⟩ := Subtype.ext e1
        rw [ha', hb']
        exact Sym2.eq_swap
    exact Reach.head hstep (ih havoid')

theorem mazeGraph_acyclic_of_bridge {w h : Nat} {g : Grid}
    (hbr : ∀ e ∈ openEdges w h g, ¬ Reach ((openEdges w h g).erase e) e.1 e.2) :
    (mazeGraph w h g).IsAcyclic := by
  intro v c hcyc
  cases c with
  | nil => exact hcyc.ne_nil rfl
  | cons hadj p =>
    rename_i b
    rw [SimpleGraph.Walk.cons_isCycle_iff] at hcyc
    obtain ⟨hpath, hedge⟩ := hcyc
    rcases hadj with hs | hs
    · have hf1 : v.1 ∈ boxFinset w h := v.2
      have hf2 : b.1 ∈ boxFinset w h := b.2
      have havoid : s(⟨v.1, hf1⟩, ⟨b.1, hf2⟩) ∉ p.edges := by
        have hv' : (⟨v.1, hf1⟩ : {c : Cell // c ∈ boxFinset w h}) = v := Subtype.ext rfl
        have hb' : (⟨b.1, hf2⟩ : {c : Cell // c ∈ boxFinset w h}) = b := Subtype.ext rfl
        rw [hv', hb']
        exact hedge
      have hchain := walk_to_chain_avoid ((v.1, b.1)) hf1 hf2 p havoid
      exact hbr _ hs hchain.symm
    · have hf1 : b.1 ∈ boxFinset w h := b.2
      have hf2 : v.1 ∈ boxFinset w h := v.2
      have havoid : s(⟨b.1, hf1⟩, ⟨v.1, hf2⟩) ∉ p.edges := by
        have hv' : (⟨v.1, hf2⟩ : {c : Cell // c ∈ boxFinset w h}) = v := Subtype.ext rfl
        have hb' : (⟨b.1, hf1⟩ : {c : Cell // c ∈ boxFinset w h}) = b := Subtype.ext rfl
        rw [hv', hb', Sym2.eq_swap]
        exact hedge
      have hchain := walk_to_chain_avoid ((b.1, v.1)) hf1 hf2 p havoid
      exact hbr _ hs hchain

/-- C1: for dimensions at least 3×3 whose Reserved Set is empty, the
generated grid has exactly `width * height - 1` open (mutually
wall-cleared) edge-pairs, and its open-passage graph on all cells is
connected and acyclic — a spanning tree — whatever seed and PRNG state are
used. -/
theorem generate_spanning_tree (width height : Nat) (seed : Option Int)
    (seedTape : Int → Nat → Nat) (rng : RandomState)
    (h3w : 3 ≤ width) (h3h : 3 ≤ height)
    (hpat : get_42_pattern_cells width height = ∅) :
    (openEdges width height (generate width height seed seedTape rng)).card =
      width * height - 1 ∧
    (mazeGraph width height (generate width height seed seedTape rng)).Connected ∧
    (mazeGraph width height (generate width height seed seedTape rng)).IsAcyclic := by
  obtain ⟨st', hgrid, hinv, hstk, horig⟩ :=
    generate_spec width height seed seedTape rng (by omega) (by omega)
  rw [hgrid]
  have htree0 := hinv.tree
  rw [hpat, Finset.sdiff_empty] at htree0
  have hvis_eq : st'.visited = boxFinset width height := by
    apply Finset.Subset.antisymm
    · intro c hc
      rcases hinv.visBox c hc with hb | hp
      · exact mem_boxFinset.mpr hb
      · rw [hpat] at hp
        simp at hp
    · intro c hc
      refine box_subset_visited st'.visited horig ?_ c (mem_boxFinset.mp hc)
      intro z hz d hd hbox
      refine hinv.processed z hz ?_ ?_ d hd hbox
      · rw [hpat]
        simp
      · rw [hstk]
        simp
  rw [hvis_eq] at htree0
  refine ⟨?_, ?_, ?_⟩
  · have hcard := htree0.card_eq
    rw [card_boxFinset] at hcard
    omega
  · rw [SimpleGraph.connected_iff]
    constructor
    · intro a b
      obtain ⟨n, hch⟩ := htree0.reach a.1 a.2 b.1 b.2
      have hr := reach_to_reachable hch a.2 b.2
      have ha' : (⟨a.1, a.2⟩ : {c : Cell // c ∈ boxFinset width height}) = a := Subtype.ext rfl
      have hb' : (⟨b.1, b.2⟩ : {c : Cell // c ∈ boxFinset width height}) = b := Subtype.ext rfl
      rw [ha', hb'] at hr
      exact hr
    · refine ⟨⟨((0 : Int), (0 : Int)), ?_⟩⟩
      rw [mem_boxFinset]
      refine ⟨le_refl 0, ?_, le_refl 0, ?_⟩
      · show (0 : Int) < (width : Int)
        exact_mod_cast (show 0 < width by omega)
      · show (0 : Int) < (height : Int)
        exact_mod_cast (show 0 < height by omega)
  · exact mazeGraph_acyclic_of_bridge htree0.bridge

/-- Witness for C1 at a concrete 3×3 generation with a seed. -/
theorem generate_spanning_tree_witness :
    (openEdges 3 3 (generate 3 3 (some 1) (fun _ _ => 0)
      (RandomState.mk (fun _ => 0) 0))).card = 3 * 3 - 1 ∧
    (mazeGraph 3 3 (generate 3 3 (some 1) (fun _ _ => 0)
      (RandomState.mk (fun _ => 0) 0))).Connected ∧
    (mazeGraph 3 3 (generate 3 3 (some 1) (fun _ _ => 0)
      (RandomState.mk (fun _ => 0) 0))).IsAcyclic :=
  generate_spanning_tree 3 3 (some 1) (fun _ _ => 0) (RandomState.mk (fun _ => 0) 0)
    (by norm_num) (by norm_num) (by decide)

/-! ### The BFS solver `solve_bfs` (src/src/solver/hex_writer.py) -/

/-- `hex_writer.DIRECTIONS` in insertion order: `wall_bit ↦ (dx, dy, letter)`
for North, East, South, West. -/
def BFS_DIRECTIONS : List (Nat × Int × Int × Char) :=
  [(1, 0, -1, 'N'), (2, 1, 0, 'E'), (4, 0, 1, 'S'), (8, -1, 0, 'W')]

/-- `height = len(grid)`. -/
def gridH (g : Grid) : Nat := g.length

/-- `width = len(grid[0])`. -/
def gridW (g : Grid) : Nat := (g.headD []).length

/-- One pass of the `for wall_bit, (dx, dy, letter) in DIRECTIONS.items()`
body of `solve_bfs`: a direction whose wall bit is set in the current cell
is skipped (`continue`); otherwise the neighbour is marked visited and
enqueued when it is in bounds and unvisited.  Returns the updated queue and
visited set. -/
def bfs_expand (g : Grid) (w h : Nat) (c : Cell) (path : String) :
    List (Nat × Int × Int × Char) → List (Cell × String) → Finset Cell →
      List (Cell × String) × Finset Cell
  | [], q, vis => (q, vis)
  | (bit, dx, dy, letter) :: ds, q, vis =>
    if cellAt g c &&& bit ≠ 0 then bfs_expand g w h c path ds q vis
    else if InBox w h (c.1 + dx, c.2 + dy) ∧ (c.1 + dx, c.2 + dy) ∉ vis then
      bfs_expand g w h c path ds
        (q ++ [((c.1 + dx, c.2 + dy), path.push letter)])
        (insert (c.1 + dx, c.2 + dy) vis)
    else bfs_expand g w h c path ds q vis

/-- The `while queue:` loop of `solve_bfs`, fuel-indexed so that it is
structurally recursive.  The exit test happens at dequeue time; `some none`
is Python's `return None` (queue exhausted), `some (some p)` is
`return path`, and `none` is out of fuel (shown unreachable for the fuel
`solve_bfs` passes, see `solve_bfs_loop_isSome`). -/
def solve_bfs_loop (g : Grid) (w h : Nat) (ex : Cell) :
    Nat → List (Cell × String) → Finset Cell → Option (Option String)
  | 0, _, _ => none
  | _ + 1, [], _ => some none
  | fuel + 1, (c, path) :: rest, vis =>
    if c = ex then some (some path)
    else
      solve_bfs_loop g w h ex fuel
        (bfs_expand g w h c path BFS_DIRECTIONS rest vis).1
        (bfs_expand g w h c path BFS_DIRECTIONS rest vis).2

/-- `solve_bfs(grid, entry, exit_pt)`: BFS from `entry` over the open walls
of `grid`, returning the first path that dequeues at `exit_pt`, or `none`
when the queue empties. -/
def solve_bfs (g : Grid) (entry ex : Cell) : Option String :=
  match solve_bfs_loop g (gridW g) (gridH g) ex (2 * (gridW g * gridH g) + 2)
      [(entry, "")] {entry} with
  | some r => r
  | none => none

/-- Replay semantics of a path string: each letter moves along a compass
direction whose wall bit is clear at the current cell, staying in bounds.
`ValidWalk g w h a l b` says the letters `l` walk from `a` to `b` crossing
only open passages. -/
inductive ValidWalk (g : Grid) (w h : Nat) : Cell → List Char → Cell → Prop
  | nil (c : Cell) : InBox w h c → ValidWalk g w h c [] c
  | cons (c : Cell) (bit : Nat) (dx dy : Int) (ch : Char) (rest : List Char)
      (z : Cell) :
      (bit, dx, dy, ch) ∈ BFS_DIRECTIONS →
      InBox w h c →
      cellAt g c &&& bit = 0 →
      InBox w h (c.1 + dx, c.2 + dy) →
      ValidWalk g w h (c.1 + dx, c.2 + dy) rest z →
      ValidWalk g w h c (ch :: rest) z

theorem ValidWalk.start_box {g : Grid} {w h : Nat} {a : Cell} {l : List Char}
    {b : Cell} (hw : ValidWalk g w h a l b) : InBox w h a := by
  cases hw
  case nil hbox => exact hbox
  case cons hmem hbox hbit htbox htail => exact hbox

theorem validWalk_nil_eq {g : Grid} {w h : Nat} {a b : Cell}
    (hw : ValidWalk g w h a [] b) : a = b := by
  cases hw
  rfl

theorem ValidWalk.snoc {g : Grid} {w h : Nat} {bit : Nat} {dx dy : Int}
    {ch : Char} (hmem : (bit, dx, dy, ch) ∈ BFS_DIRECTIONS) :
    ∀ {a : Cell} {l : List Char} {b : Cell}, ValidWalk g w h a l b →
      cellAt g b &&& bit = 0 → InBox w h (b.1 + dx, b.2 + dy) →
      ValidWalk g w h a (l ++ [ch]) (b.1 + dx, b.2 + dy) := by
  intro a l b hw
  induction hw with
  | nil c hc =>
    intro hbit hbox
    exact ValidWalk.cons c bit dx dy ch [] _ hmem hc hbit hbox
      (ValidWalk.nil _ hbox)
  | cons c bit' dx' dy' ch' rest z hmem' hc hbit' htb htl ih =>
    intro hbit hbox
    exact ValidWalk.cons c bit' dx' dy' ch' (rest ++ [ch]) _ hmem' hc hbit' htb
      (ih hbit hbox)

theorem validWalk_snoc_inv {g : Grid} {w h : Nat} {ch : Char} :
    ∀ (l : List Char) {a z : Cell}, ValidWalk g w h a (l ++ [ch]) z →
      ∃ b bit dx dy, ValidWalk g w h a l b ∧
        (bit, dx, dy, ch) ∈ BFS_DIRECTIONS ∧
        cellAt g b &&& bit = 0 ∧ InBox w h (b.1 + dx, b.2 + dy) ∧
        z = (b.1 + dx, b.2 + dy) := by
  intro l
  induction l with
  | nil =>
    intro a z hw
    cases hw with
    | cons _ bit dx dy ch0 rest z0 hmem hc hbit htb htl =>
      exact ⟨a, bit, dx, dy, ValidWalk.nil a hc, hmem, hbit, htb,
        (validWalk_nil_eq htl).symm⟩
  | cons c0 l ih =>
    intro a z hw
    cases hw with
    | cons _ bit' dx' dy' ch' rest z0 hmem' hc hbit' htb' htl =>
      obtain ⟨b, bit, dx, dy, hwb, hmem, hbit, hbox, hz⟩ := ih htl
      exact ⟨b, bit, dx, dy,
        ValidWalk.cons a bit' dx' dy' c0 l b hmem' hc hbit' htb' hwb,
        hmem, hbit, hbox, hz⟩

theorem bfs_expand_spec (g : Grid) (w h : Nat) (c : Cell) (path : String) :
    ∀ (ds : List (Nat × Int × Int × Char)) (q : List (Cell × String))
      (vis : Finset Cell),
      ∃ newE : List (Cell × String),
        (bfs_expand g w h c path ds q vis).1 = q ++ newE ∧
        (bfs_expand g w h c path ds q vis).2 =
          vis ∪ (newE.map Prod.fst).toFinset ∧
        (∀ e ∈ newE, ∃ bit dx dy ch, (bit, dx, dy, ch) ∈ ds ∧
          cellAt g c &&& bit = 0 ∧ e.1 = (c.1 + dx, c.2 + dy) ∧
          InBox w h e.1 ∧ e.1 ∉ vis ∧ e.2 = path.push ch) ∧
        (newE.map Prod.fst).Nodup ∧
        (∀ bit dx dy ch, (bit, dx, dy, ch) ∈ ds → cellAt g c &&& bit = 0 →
          InBox w h (c.1 + dx, c.2 + dy) →
          (c.1 + dx, c.2 + dy) ∈ (bfs_expand g w h c path ds q vis).2) := by
  intro ds
  induction ds with
  | nil =>
    intro q vis
    refine ⟨[], ?_, ?_, ?_, ?_, ?_⟩
    · simp [bfs_expand]
    · simp [bfs_expand]
    · intro e he
      simp at he
    · simp
    · intro bit dx dy ch hd
      simp at hd
  | cons d ds ih =>
    obtain ⟨bit0, dx0, dy0, ch0⟩ := d
    intro q vis
    by_cases hbit0 : cellAt g c &&& bit0 = 0
    · by_cases hn : InBox w h (c.1 + dx0, c.2 + dy0) ∧
        (c.1 + dx0, c.2 + dy0) ∉ vis
      · -- open wall, in-bounds unvisited neighbour: it is enqueued
        obtain ⟨newE, h1, h2, h3, h4, h5⟩ :=
          ih (q ++ [((c.1 + dx0, c.2 + dy0), path.push ch0)])
            (insert (c.1 + dx0, c.2 + dy0) vis)
        have hred : bfs_expand g w h c path ((bit0, dx0, dy0, ch0) :: ds) q vis =
            bfs_expand g w h c path ds
              (q ++ [((c.1 + dx0, c.2 + dy0), path.push ch0)])
              (insert (c.1 + dx0, c.2 + dy0) vis) := by
          simp only [bfs_expand]
          rw [if_neg (not_not_intro hbit0), if_pos hn]
        refine ⟨((c.1 + dx0, c.2 + dy0), path.push ch0) :: newE,
          ?_, ?_, ?_, ?_, ?_⟩
        · rw [hred, h1]
          simp
        · rw [hred, h2]
          ext z
          simp [Finset.mem_union, Finset.mem_insert]
        · intro e he
          rcases List.mem_cons.mp he with rfl | he'
          · exact ⟨bit0, dx0, dy0, ch0, List.mem_cons_self _ _, hbit0, rfl,
              hn.1, hn.2, rfl⟩
          · obtain ⟨bit, dx, dy, ch, hd, hb, he1, hbox, hnv, hp⟩ := h3 e he'
            exact ⟨bit, dx, dy, ch, List.mem_cons_of_mem _ hd, hb, he1, hbox,
              fun hv => hnv (Finset.mem_insert_of_mem hv), hp⟩
        · rw [List.map_cons]
          refine List.nodup_cons.mpr ⟨?_, h4⟩
          intro hmem
          obtain ⟨e, he, he1⟩ := List.mem_map.mp hmem
          obtain ⟨bit, dx, dy, ch, hd, hb, hee1, hbox, hnv, hp⟩ := h3 e he
          exact hnv (by rw [he1]; exact Finset.mem_insert_self _ _)
        · intro bit dx dy ch hd hb hbox
          rw [hred]
          rcases List.mem_cons.mp hd with heq | htl
          · simp only [Prod.mk.injEq] at heq
            obtain ⟨rfl, rfl, rfl, rfl⟩ := heq
            rw [h2]
            exact Finset.mem_union_left _ (Finset.mem_insert_self _ _)
          · exact h5 bit dx dy ch htl hb hbox
      · -- open wall, but out of bounds or already visited: skipped
        obtain ⟨newE, h1, h2, h3, h4, h5⟩ := ih q vis
        have hred : bfs_expand g w h c path ((bit0, dx0, dy0, ch0) :: ds) q vis =
            bfs_expand g w h c path ds q vis := by
          simp only [bfs_expand]
          rw [if_neg (not_not_intro hbit0), if_neg hn]
        refine ⟨newE, ?_, ?_, ?_, h4, ?_⟩
        · rw [hred, h1]
        · rw [hred, h2]
        · intro e he
          obtain ⟨bit, dx, dy, ch, hd, hb, he1, hbox, hnv, hp⟩ := h3 e he
          exact ⟨bit, dx, dy, ch, List.mem_cons_of_mem _ hd, hb, he1, hbox,
            hnv, hp⟩
        · intro bit dx dy ch hd hb hbox
          rw [hred]
          rcases List.mem_cons.mp hd with heq | htl
          · simp only [Prod.mk.injEq] at heq
            obtain ⟨rfl, rfl, rfl, rfl⟩ := heq
            push_neg at hn
            rw [h2]
            exact Finset.mem_union_left _ (hn hbox)
          · exact h5 bit dx dy ch htl hb hbox
    · -- wall bit set: the direction is skipped outright
      obtain ⟨newE, h1, h2, h3, h4, h5⟩ := ih q vis
      have hred : bfs_expand g w h c path ((bit0, dx0, dy0, ch0) :: ds) q vis =
          bfs_expand g w h c path ds q vis := by
        simp only [bfs_expand]
        rw [if_pos hbit0]
      refine ⟨newE, ?_, ?_, ?_, h4, ?_⟩
      · rw [hred, h1]
      · rw [hred, h2]
      · intro e he
        obtain ⟨bit, dx, dy, ch, hd, hb, he1, hbox, hnv, hp⟩ := h3 e he
        exact ⟨bit, dx, dy, ch, List.mem_cons_of_mem _ hd, hb, he1, hbox,
          hnv, hp⟩
      · intro bit dx dy ch hd hb hbox
        rw [hred]
        rcases List.mem_cons.mp hd with heq | htl
        · simp only [Prod.mk.injEq] at heq
          obtain ⟨rfl, rfl, rfl, rfl⟩ := heq
          exact absurd hb hbit0
        · exact h5 bit dx dy ch htl hb hbox

theorem bfs_expand_card (g : Grid) (w h : Nat) (c : Cell) (path : String)
    (q : List (Cell × String)) (vis : Finset Cell) :
    ∃ k, (bfs_expand g w h c path BFS_DIRECTIONS q vis).1.length =
        q.length + k ∧
      ((boxFinset w h) \ (bfs_expand g w h c path BFS_DIRECTIONS q vis).2).card
        + k = ((boxFinset w h) \ vis).card := by
  obtain ⟨newE, h1, h2, h3, h4, h5⟩ :=
    bfs_expand_spec g w h c path BFS_DIRECTIONS q vis
  refine ⟨newE.length, ?_, ?_⟩
  · rw [h1, List.length_append]
  · rw [h2]
    have hS : (newE.map Prod.fst).toFinset ⊆ (boxFinset w h) \ vis := by
      intro z hz
      obtain ⟨e, he, he1⟩ := List.mem_map.mp (List.mem_toFinset.mp hz)
      obtain ⟨bit, dx, dy, ch, hd, hb, hee1, hbox, hnv, hp⟩ := h3 e he
      rw [← he1]
      exact Finset.mem_sdiff.mpr ⟨mem_boxFinset.mpr hbox, hnv⟩
    have hsd : (boxFinset w h) \ (vis ∪ (newE.map Prod.fst).toFinset) =
        ((boxFinset w h) \ vis) \ (newE.map Prod.fst).toFinset := by
      ext z
      simp [Finset.mem_sdiff, Finset.mem_union]
      tauto
    have hle : ((newE.map Prod.fst).toFinset).card ≤
        ((boxFinset w h) \ vis).card := Finset.card_le_card hS
    have hml : (newE.map Prod.fst).length = newE.length := List.length_map _ _
    rw [hsd, Finset.card_sdiff hS, List.toFinset_card_of_nodup h4]
    rw [List.toFinset_card_of_nodup h4] at hle
    omega

theorem string_data_push (s : String) (c : Char) :
    (s.push c).data = s.data ++ [c] := rfl

theorem pairwise_of_const {α : Type} (l : List α) (f : α → Nat) (k : Nat)
    (hf : ∀ x ∈ l, f x = k) : l.Pairwise (fun a b => f a ≤ f b) := by
  induction l with
  | nil => exact List.Pairwise.nil
  | cons a l ih =>
    refine List.Pairwise.cons ?_ (ih fun x hx => hf x (List.mem_cons_of_mem _ hx))
    intro b hb
    rw [hf a (List.mem_cons_self _ _), hf b (List.mem_cons_of_mem _ hb)]

/-- The running invariant of `solve_bfs`'s loop: queue entries carry valid
shortest walks from `entry`, the queue is sorted by path length and spans at
most two consecutive lengths, every cell reachable within the length of the
queue head is already visited, fully processed cells have their open
in-bounds neighbours visited, queue cells are distinct, and a visited exit
is still pending in the queue. -/
structure BfsInv (g : Grid) (w h : Nat) (entry ex : Cell)
    (q : List (Cell × String)) (vis : Finset Cell) : Prop where
  entry_vis : entry ∈ vis
  valid : ∀ e ∈ q, ValidWalk g w h entry e.2.data e.1
  shortest : ∀ e ∈ q, ∀ l : List Char, ValidWalk g w h entry l e.1 →
    e.2.length ≤ l.length
  inVis : ∀ e ∈ q, e.1 ∈ vis
  sorted : q.Pairwise fun e1 e2 => e1.2.length ≤ e2.2.length
  spread : ∀ e0 e, q.head? = some e0 → e ∈ q → e.2.length ≤ e0.2.length + 1
  complete : ∀ (z : Cell) (l : List Char), ValidWalk g w h entry l z →
    (∀ e0, q.head? = some e0 → l.length ≤ e0.2.length) → z ∈ vis
  processed : ∀ z ∈ vis, (∀ e ∈ q, e.1 ≠ z) →
    ∀ bit dx dy ch, ((bit, dx, dy, ch) : Nat × Int × Int × Char) ∈
        BFS_DIRECTIONS →
      cellAt g z &&& bit = 0 → InBox w h (z.1 + dx, z.2 + dy) →
      (z.1 + dx, z.2 + dy) ∈ vis
  nodupCells : (q.map Prod.fst).Nodup
  exitPending : ex ∈ vis → ∃ e ∈ q, e.1 = ex

theorem bfsInv_init (g : Grid) (w h : Nat) (entry ex : Cell)
    (hbox : InBox w h entry) :
    BfsInv g w h entry ex [(entry, "")] {entry} := by
  have hdata : ("" : String).data = [] := rfl
  have hlen : ("" : String).length = 0 := rfl
  refine ⟨?_, ?_, ?_, ?_, ?_, ?_, ?_, ?_, ?_, ?_⟩
  · exact Finset.mem_singleton_self entry
  · intro e he
    rw [List.mem_singleton] at he
    subst he
    rw [hdata]
    exact ValidWalk.nil entry hbox
  · intro e he l hl
    rw [List.mem_singleton] at he
    subst he
    rw [hlen]
    exact Nat.zero_le _
  · intro e he
    rw [List.mem_singleton] at he
    subst he
    exact Finset.mem_singleton_self entry
  · exact List.pairwise_singleton _ _
  · intro e0 e he0 he
    rw [List.mem_singleton] at he
    subst he
    injection he0 with he0
    subst he0
    omega
  · intro z l hl hhead
    have h0 : l.length ≤ ("" : String).length := hhead (entry, "") rfl
    rw [hlen] at h0
    have hl0 : l = [] := List.length_eq_zero.mp (Nat.le_zero.mp h0)
    subst hl0
    rw [← validWalk_nil_eq hl]
    exact Finset.mem_singleton_self entry
  · intro z hz hne bit dx dy ch hmem hbit hbox'
    rw [Finset.mem_singleton] at hz
    exact absurd hz.symm (hne (entry, "") (List.mem_singleton_self _))
  · simp
  · intro hexv
    exact ⟨(entry, ""), List.mem_singleton_self _,
      (Finset.mem_singleton.mp hexv).symm⟩

theorem bfsInv_step {g : Grid} {w h : Nat} {entry ex : Cell} {c : Cell}
    {path : String} {rest : List (Cell × String)} {vis : Finset Cell}
    (hinv : BfsInv g w h entry ex ((c, path) :: rest) vis)
    (hce : c ≠ ex) :
    BfsInv g w h entry ex
      (bfs_expand g w h c path BFS_DIRECTIONS rest vis).1
      (bfs_expand g w h c path BFS_DIRECTIONS rest vis).2 := by
  obtain ⟨newE, hq, hvis, hent, hnodup, hcover⟩ :=
    bfs_expand_spec g w h c path BFS_DIRECTIONS rest vis
  have hcw : ValidWalk g w h entry path.data c :=
    hinv.valid (c, path) (List.mem_cons_self _ _)
  have hvsub : vis ⊆ (bfs_expand g w h c path BFS_DIRECTIONS rest vis).2 := by
    rw [hvis]
    exact Finset.subset_union_left
  have hnewcells : ∀ e ∈ newE,
      e.1 ∈ (bfs_expand g w h c path BFS_DIRECTIONS rest vis).2 := by
    intro e he
    rw [hvis]
    exact Finset.mem_union_right _
      (List.mem_toFinset.mpr (List.mem_map_of_mem _ he))
  have hlen_new : ∀ e ∈ newE, e.2.length = path.length + 1 := by
    intro e he
    obtain ⟨bit, dx, dy, ch, hd, hb, he1, hbox, hnv, hp⟩ := hent e he
    rw [hp, String.length_push]
  have hvalid_new : ∀ e ∈ newE, ValidWalk g w h entry e.2.data e.1 := by
    intro e he
    obtain ⟨bit, dx, dy, ch, hd, hb, he1, hbox, hnv, hp⟩ := hent e he
    rw [hp, string_data_push, he1]
    exact hcw.snoc hd hb (he1 ▸ hbox)
  have hpath_le_rest : ∀ e ∈ rest, path.length ≤ e.2.length :=
    fun e he => (List.pairwise_cons.mp hinv.sorted).1 e he
  have hrest_le : ∀ e ∈ rest, e.2.length ≤ path.length + 1 :=
    fun e he => hinv.spread (c, path) e rfl (List.mem_cons_of_mem _ he)
  have hsorted_rest : rest.Pairwise (fun e1 e2 => e1.2.length ≤ e2.2.length) :=
    (List.pairwise_cons.mp hinv.sorted).2
  have hshort_new : ∀ e ∈ newE, ∀ l : List Char,
      ValidWalk g w h entry l e.1 → e.2.length ≤ l.length := by
    intro e he l hl
    by_contra hlt
    push_neg at hlt
    have hle : l.length ≤ path.length := by
      have := hlen_new e he
      omega
    have hzv : e.1 ∈ vis := by
      refine hinv.complete e.1 l hl ?_
      intro e0 he0
      injection he0 with he0
      rw [← he0]
      exact hle
    obtain ⟨bit, dx, dy, ch, hd, hb, he1, hbox, hnv, hp⟩ := hent e he
    exact hnv hzv
  have hall_le : ∀ e ∈ rest ++ newE, e.2.length ≤ path.length + 1 := by
    intro e he
    rcases List.mem_append.mp he with h1 | h1
    · exact hrest_le e h1
    · rw [hlen_new e h1]
  refine ⟨hvsub hinv.entry_vis, ?_, ?_, ?_, ?_, ?_, ?_, ?_, ?_, ?_⟩
  · rw [hq]
    intro e he
    rcases List.mem_append.mp he with h1 | h1
    · exact hinv.valid e (List.mem_cons_of_mem _ h1)
    · exact hvalid_new e h1
  · rw [hq]
    intro e he l hl
    rcases List.mem_append.mp he with h1 | h1
    · exact hinv.shortest e (List.mem_cons_of_mem _ h1) l hl
    · exact hshort_new e h1 l hl
  · rw [hq]
    intro e he
    rcases List.mem_append.mp he with h1 | h1
    · exact hvsub (hinv.inVis e (List.mem_cons_of_mem _ h1))
    · exact hnewcells e h1
  · rw [hq]
    refine List.pairwise_append.mpr ⟨hsorted_rest, ?_, ?_⟩
    · exact pairwise_of_const newE (fun e => e.2.length) (path.length + 1)
        hlen_new
    · intro a ha b hb
      calc a.2.length ≤ path.length + 1 := hrest_le a ha
        _ = b.2.length := (hlen_new b hb).symm
  · rw [hq]
    intro e0 e he0 he
    cases rest with
    | nil =>
      have he0' : newE.head? = some e0 := by simpa using he0
      have hm : e0 ∈ newE := List.mem_of_mem_head? he0'
      have he' : e ∈ newE := by simpa using he
      rw [hlen_new e he', hlen_new e0 hm]
      omega
    | cons r0 rtl =>
      injection he0 with he0
      have h1 : e.2.length ≤ path.length + 1 := hall_le e he
      have h2 : path.length ≤ r0.2.length :=
        hpath_le_rest r0 (List.mem_cons_self _ _)
      rw [← he0]
      omega
  · rw [hq, hvis]
    have main : ∀ (n : Nat) (l : List Char) (z : Cell), l.length = n →
        ValidWalk g w h entry l z →
        (∀ e0, (rest ++ newE).head? = some e0 → l.length ≤ e0.2.length) →
        z ∈ vis ∪ (newE.map Prod.fst).toFinset := by
      intro n
      induction n using Nat.strong_induction_on with
      | _ n ihn =>
        intro l z hlen hl hhead
        rcases List.eq_nil_or_concat l with rfl | ⟨l0, ch, rfl⟩
        · rw [← validWalk_nil_eq hl]
          exact Finset.mem_union_left _ hinv.entry_vis
        · rw [List.concat_eq_append] at hl hhead hlen
          have hlen1 : l0.length + 1 = n := by simpa using hlen
          have hhead1 : ∀ e0, (rest ++ newE).head? = some e0 →
              l0.length + 1 ≤ e0.2.length := by
            intro e0 he0
            have := hhead e0 he0
            simpa using this
          obtain ⟨b, bit, dx, dy, hwb, hmem, hbitb, hboxz, hz⟩ :=
            validWalk_snoc_inv l0 hl
          have hlb : b ∈ vis ∪ (newE.map Prod.fst).toFinset := by
            refine ihn l0.length (by omega) l0 b rfl hwb ?_
            intro e0 he0
            have := hhead1 e0 he0
            omega
          rcases Finset.mem_union.mp hlb with hbv | hbS
          · by_cases hbc : b = c
            · subst hbc
              rw [hz]
              have hc2 := hcover bit dx dy ch hmem hbitb hboxz
              rw [hvis] at hc2
              exact hc2
            · by_cases hbr : ∃ e ∈ rest, e.1 = b
              · obtain ⟨e, her, hbe⟩ := hbr
                have hsh : e.2.length ≤ l0.length :=
                  hinv.shortest e (List.mem_cons_of_mem _ her) l0
                    (by rw [hbe]; exact hwb)
                cases rest with
                | nil => exact absurd her (List.not_mem_nil e)
                | cons r0 rtl =>
                  have hb1 : l0.length + 1 ≤ r0.2.length := hhead1 r0 rfl
                  have hr0e : r0.2.length ≤ e.2.length := by
                    rcases List.mem_cons.mp her with rfl | hetl
                    · exact le_refl _
                    · exact (List.pairwise_cons.mp hsorted_rest).1 e hetl
                  omega
              · have hne : ∀ e ∈ (c, path) :: rest, e.1 ≠ b := by
                  intro e he
                  rcases List.mem_cons.mp he with rfl | hetl
                  · exact fun hcb => hbc hcb.symm
                  · exact fun hcb => hbr ⟨e, hetl, hcb⟩
                have hnb :=
                  hinv.processed b hbv hne bit dx dy ch hmem hbitb hboxz
                rw [hz]
                exact Finset.mem_union_left _ hnb
          · obtain ⟨e, he, hbe⟩ := List.mem_map.mp (List.mem_toFinset.mp hbS)
            have hsh : e.2.length ≤ l0.length :=
              hshort_new e he l0 (by rw [hbe]; exact hwb)
            have hel : e.2.length = path.length + 1 := hlen_new e he
            rcases hqe : rest ++ newE with _ | ⟨e0, qtl⟩
            · have hnil : newE = [] := (List.append_eq_nil.mp hqe).2
              rw [hnil] at he
              exact absurd he (List.not_mem_nil e)
            · have he0 : (rest ++ newE).head? = some e0 := by rw [hqe]; rfl
              have hb1 : l0.length + 1 ≤ e0.2.length := hhead1 e0 he0
              have he0m : e0 ∈ rest ++ newE := by
                rw [hqe]
                exact List.mem_cons_self _ _
              have he0le : e0.2.length ≤ path.length + 1 := hall_le e0 he0m
              omega
    exact fun z l hl hhead => main l.length l z rfl hl hhead
  · rw [hq, hvis]
    intro z hz hzne bit dx dy ch hmem hbit hbox
    rcases Finset.mem_union.mp hz with hzv | hzS
    · by_cases hzc : z = c
      · subst hzc
        have hc2 := hcover bit dx dy ch hmem hbit hbox
        rw [hvis] at hc2
        exact hc2
      · have hne : ∀ e ∈ (c, path) :: rest, e.1 ≠ z := by
          intro e he
          rcases List.mem_cons.mp he with rfl | hetl
          · exact fun hcz => hzc hcz.symm
          · exact hzne e (List.mem_append_left _ hetl)
        exact Finset.mem_union_left _
          (hinv.processed z hzv hne bit dx dy ch hmem hbit hbox)
    · obtain ⟨e, he, hez⟩ := List.mem_map.mp (List.mem_toFinset.mp hzS)
      exact absurd hez (hzne e (List.mem_append_right _ he))
  · rw [hq, List.map_append]
    refine List.Nodup.append ?_ hnodup ?_
    · exact (List.nodup_cons.mp hinv.nodupCells).2
    · intro a ha hanew
      obtain ⟨e, he, hea⟩ := List.mem_map.mp ha
      obtain ⟨e', he', hea'⟩ := List.mem_map.mp hanew
      obtain ⟨bit, dx, dy, ch, hd, hb, he1, hbox, hnv, hp⟩ := hent e' he'
      apply hnv
      rw [hea', ← hea]
      exact hinv.inVis e (List.mem_cons_of_mem _ he)
  · rw [hq, hvis]
    intro hexv
    rcases Finset.mem_union.mp hexv with hexv | hexS
    · obtain ⟨e, he, he1⟩ := hinv.exitPending hexv
      rcases List.mem_cons.mp he with rfl | hetl
      · exact absurd he1 hce
      · exact ⟨e, List.mem_append_left _ hetl, he1⟩
    · obtain ⟨e, he, he1⟩ := List.mem_map.mp (List.mem_toFinset.mp hexS)
      exact ⟨e, List.mem_append_right _ he, he1⟩

theorem solve_bfs_loop_spec (g : Grid) (w h : Nat) (entry ex : Cell) :
    ∀ (fuel : Nat) (q : List (Cell × String)) (vis : Finset Cell),
      BfsInv g w h entry ex q vis →
      (∀ p : String, solve_bfs_loop g w h ex fuel q vis = some (some p) →
        ValidWalk g w h entry p.data ex ∧
        ∀ l : List Char, ValidWalk g w h entry l ex → p.length ≤ l.length) ∧
      (solve_bfs_loop g w h ex fuel q vis = some none →
        ∀ l : List Char, ¬ ValidWalk g w h entry l ex) := by
  intro fuel
  induction fuel with
  | zero =>
    intro q vis hinv
    constructor
    · intro p hp
      simp [solve_bfs_loop] at hp
    · intro hp
      simp [solve_bfs_loop] at hp
  | succ fuel ih =>
    intro q vis hinv
    cases q with
    | nil =>
      constructor
      · intro p hp
        simp [solve_bfs_loop] at hp
      · intro hp l hl
        have hexv : ex ∈ vis := by
          refine hinv.complete ex l hl ?_
          intro e0 he0
          simp at he0
        obtain ⟨e, he, he1⟩ := hinv.exitPending hexv
        exact absurd he (List.not_mem_nil e)
    | cons e rest =>
      obtain ⟨c, path⟩ := e
      by_cases hce : c = ex
      · subst hce
        constructor
        · intro p hp
          have hpp : path = p := by
            simp only [solve_bfs_loop, if_pos rfl] at hp
            exact Option.some_injective _ (Option.some_injective _ hp)
          subst hpp
          exact ⟨hinv.valid (c, path) (List.mem_cons_self _ _),
            fun l hl => hinv.shortest (c, path) (List.mem_cons_self _ _) l hl⟩
        · intro hp
          simp [solve_bfs_loop] at hp
      · have hstep := bfsInv_step hinv hce
        have hred : solve_bfs_loop g w h ex (fuel + 1) ((c, path) :: rest) vis =
            solve_bfs_loop g w h ex fuel
              (bfs_expand g w h c path BFS_DIRECTIONS rest vis).1
              (bfs_expand g w h c path BFS_DIRECTIONS rest vis).2 := by
          simp only [solve_bfs_loop]
          rw [if_neg hce]
        rw [hred]
        exact ih _ _ hstep

theorem solve_bfs_loop_isSome (g : Grid) (w h : Nat) (ex : Cell) :
    ∀ (fuel : Nat) (q : List (Cell × String)) (vis : Finset Cell),
      q.length + 2 * ((boxFinset w h) \ vis).card < fuel →
      (solve_bfs_loop g w h ex fuel q vis).isSome := by
  intro fuel
  induction fuel with
  | zero =>
    intro q vis hlt
    omega
  | succ fuel ih =>
    intro q vis hlt
    cases q with
    | nil => simp [solve_bfs_loop]
    | cons e rest =>
      obtain ⟨c, path⟩ := e
      by_cases hce : c = ex
      · simp [solve_bfs_loop, if_pos hce]
      · have hred : solve_bfs_loop g w h ex (fuel + 1) ((c, path) :: rest) vis =
            solve_bfs_loop g w h ex fuel
              (bfs_expand g w h c path BFS_DIRECTIONS rest vis).1
              (bfs_expand g w h c path BFS_DIRECTIONS rest vis).2 := by
          simp only [solve_bfs_loop]
          rw [if_neg hce]
        rw [hred]
        apply ih
        obtain ⟨k, hk1, hk2⟩ := bfs_expand_card g w h c path rest vis
        have hlc : ((c, path) :: rest).length = rest.length + 1 := rfl
        rw [hlc] at hlt
        omega

theorem solve_bfs_eq (g : Grid) (entry ex : Cell) :
    solve_bfs g entry ex =
      (solve_bfs_loop g (gridW g) (gridH g) ex (2 * (gridW g * gridH g) + 2)
        [(entry, "")] {entry}).getD none := by
  unfold solve_bfs
  cases solve_bfs_loop g (gridW g) (gridH g) ex (2 * (gridW g * gridH g) + 2)
      [(entry, "")] {entry} with
  | none => rfl
  | some r => rfl

theorem solve_bfs_loop_exit_head (g : Grid) (w h : Nat) (ex : Cell)
    (fuel : Nat) (p : String) (rest : List (Cell × String))
    (vis : Finset Cell) :
    solve_bfs_loop g w h ex (fuel + 1) ((ex, p) :: rest) vis =
      some (some p) := by
  simp [solve_bfs_loop]

/-- C3: shortest-path optimality of the BFS result: whenever `solve_bfs`
returns a path, its length is at most the length of every entry-to-exit
walk that uses only open passages of the grid. -/
theorem solve_bfs_shortest (g : Grid) (entry ex : Cell) (p : String)
    (hp : solve_bfs g entry ex = some p)
    (l : List Char) (hl : ValidWalk g (gridW g) (gridH g) entry l ex) :
    p.length ≤ l.length := by
  have hloop : solve_bfs_loop g (gridW g) (gridH g) ex
      (2 * (gridW g * gridH g) + 2) [(entry, "")] {entry} = some (some p) := by
    rw [solve_bfs_eq] at hp
    cases hx : solve_bfs_loop g (gridW g) (gridH g) ex
        (2 * (gridW g * gridH g) + 2) [(entry, "")] {entry} with
    | none =>
      rw [hx] at hp
      simp at hp
    | some r =>
      rw [hx, Option.getD_some] at hp
      rw [hp]
  have hinv := bfsInv_init g (gridW g) (gridH g) entry ex hl.start_box
  exact ((solve_bfs_loop_spec g (gridW g) (gridH g) entry ex
    (2 * (gridW g * gridH g) + 2) [(entry, "")] {entry} hinv).1 p hloop).2 l hl

/-- Witness for C3 at a 2×1 grid with one open east passage. -/
theorem solve_bfs_shortest_witness :
    ("E" : String).length ≤ (['E'] : List Char).length := by
  have hwalk : ValidWalk [[13, 7]] (gridW [[13, 7]]) (gridH [[13, 7]])
      (0, 0) ['E'] (1, 0) := by
    refine ValidWalk.cons (0, 0) 2 1 0 'E' [] (1, 0) (by decide) (by decide)
      (by decide) (by decide) ?_
    exact ValidWalk.nil _ (by decide)
  exact solve_bfs_shortest [[13, 7]] (0, 0) (1, 0) "E" (by decide) ['E'] hwalk

/-! ### The draft `Pathfinder.solve` (src/src/solver/pathfinder.py) -/

/-- The `directions` list of `Pathfinder.solve`:
`(dx, dy, wall_bit, letter)` for N, E, S, W. -/
def PF_DIRECTIONS : List (Int × Int × Nat × Char) :=
  [(0, -1, 1, 'N'), (1, 0, 2, 'E'), (0, 1, 4, 'S'), (-1, 0, 8, 'W')]

/-- The `for dx, dy, wall_bit, letter in directions` body of
`Pathfinder.solve`.  Note the test `(current_walls & wall_bit) != 0`: the
code explores a direction when the wall bit is SET, although its own
comment says a 0 result means the door is open.  The exit is tested at
enqueue time (`return new_path`); otherwise the unvisited neighbour is
recorded and enqueued, with no bounds check. -/
def pf_scan (m : MazeData) (walls : Nat) (c : Cell) (path : String) :
    List (Int × Int × Nat × Char) → List (Cell × String) → Finset Cell →
      Option String × List (Cell × String) × Finset Cell
  | [], q, vis => (none, q, vis)
  | (dx, dy, bit, ch) :: ds, q, vis =>
    if walls &&& bit ≠ 0 then
      if (c.1 + dx, c.2 + dy) ∉ vis then
        if (c.1 + dx, c.2 + dy) = m.exitPt then (some (path.push ch), q, vis)
        else
          pf_scan m walls c path ds
            (q ++ [((c.1 + dx, c.2 + dy), path.push ch)])
            (insert (c.1 + dx, c.2 + dy) vis)
      else pf_scan m walls c path ds q vis
    else pf_scan m walls c path ds q vis

/-- The `while queue:` loop of `Pathfinder.solve`, fuel-indexed.  (With the
inverted wall test and no bounds check the Python loop need not terminate,
so the embedding exposes the fuel; the claim below holds for every positive
fuel.)  `current_walls` is read once per dequeued cell, as in the source;
exhausted fuel returns `""` like the fall-through `return ""`. -/
def pf_loop (m : MazeData) : Nat → List (Cell × String) → Finset Cell → String
  | 0, _, _ => ""
  | _ + 1, [], _ => ""
  | fuel + 1, (c, path) :: rest, vis =>
    match pf_scan m (m.get_walls c.1 c.2) c path PF_DIRECTIONS rest vis with
    | (some p, _, _) => p
    | (none, q', vis') => pf_loop m fuel q' vis'

/-- `Pathfinder.solve`: empty path when entry equals exit, else the BFS
loop from the entry. -/
def pathfinderSolve (m : MazeData) (fuel : Nat) : String :=
  if m.entry = m.exitPt then ""
  else pf_loop m fuel [(m.entry, "")] {m.entry}

theorem pf_loop_found (m : MazeData) (fuel : Nat) (c : Cell) (path p : String)
    (rest q' : List (Cell × String)) (vis vis' : Finset Cell)
    (hscan : pf_scan m (m.get_walls c.1 c.2) c path PF_DIRECTIONS rest vis =
      (some p, q', vis')) :
    pf_loop m (fuel + 1) ((c, path) :: rest) vis = p := by
  simp only [pf_loop]
  rw [hscan]

/-- C2: REFUTED for `Pathfinder.solve` — on the fully-walled 2×1 maze it
returns the path `"E"`, which crosses a set wall bit, because its test
`(current_walls & wall_bit) != 0` inverts the openness check; replaying
`"E"` from the entry is not a walk through open passages.  The solver the
application actually writes files with, `solve_bfs`, does satisfy the
claim: every path it returns replays letter-by-letter through clear wall
bits and terminates exactly at the exit. -/
theorem path_validity :
    (∀ (g : Grid) (entry ex : Cell) (p : String),
        InBox (gridW g) (gridH g) entry →
        solve_bfs g entry ex = some p →
        ValidWalk g (gridW g) (gridH g) entry p.data ex) ∧
    (∀ fuel : Nat, 0 < fuel →
        pathfinderSolve (MazeData.mk [[15, 15]] 2 1 (0, 0) (1, 0)) fuel = "E") ∧
    ¬ ValidWalk [[15, 15]] 2 1 (0, 0) ['E'] (1, 0) := by
  refine ⟨?_, ?_, ?_⟩
  · intro g entry ex p hbox hp
    have hloop : solve_bfs_loop g (gridW g) (gridH g) ex
        (2 * (gridW g * gridH g) + 2) [(entry, "")] {entry} =
        some (some p) := by
      rw [solve_bfs_eq] at hp
      cases hx : solve_bfs_loop g (gridW g) (gridH g) ex
          (2 * (gridW g * gridH g) + 2) [(entry, "")] {entry} with
      | none =>
        rw [hx] at hp
        simp at hp
      | some r =>
        rw [hx, Option.getD_some] at hp
        rw [hp]
    have hinv := bfsInv_init g (gridW g) (gridH g) entry ex hbox
    exact ((solve_bfs_loop_spec g (gridW g) (gridH g) entry ex
      (2 * (gridW g * gridH g) + 2) [(entry, "")] {entry} hinv).1 p hloop).1
  · intro fuel hf
    cases fuel with
    | zero => omega
    | succ n =>
      have hne : ((MazeData.mk [[15, 15]] 2 1 (0, 0) (1, 0)).entry ≠
          (MazeData.mk [[15, 15]] 2 1 (0, 0) (1, 0)).exitPt) := by decide
      unfold pathfinderSolve
      rw [if_neg hne]
      exact pf_loop_found (MazeData.mk [[15, 15]] 2 1 (0, 0) (1, 0)) n
        (0, 0) "" "E" [] [((0, -1), "N")] {(0, 0)}
        (insert (0, -1) {(0, 0)}) (by decide)
  · intro hw
    cases hw
    case cons bit dx dy hcbox hbit htbox hmem htail =>
      simp only [BFS_DIRECTIONS, List.mem_cons, List.not_mem_nil,
        or_false] at hmem
      rcases hmem with hmm | hmm | hmm | hmm <;>
        simp only [Prod.mk.injEq] at hmm
      · exact absurd hmm.2.2.2 (by decide)
      · obtain ⟨h1, h2, h3, h4⟩ := hmm
        rw [h1] at hbit
        exact absurd hbit (by decide)
      · exact absurd hmm.2.2.2 (by decide)
      · exact absurd hmm.2.2.2 (by decide)

/-- Witness for C2: the solver used by the application returns a valid
walk on a concrete open grid, and the draft Pathfinder at fuel 1 returns
`"E"` on the fully-walled counterexample maze. -/
theorem path_validity_witness :
    ValidWalk [[13, 7]] (gridW [[13, 7]]) (gridH [[13, 7]]) (0, 0)
      ("E" : String).data (1, 0) ∧
    pathfinderSolve (MazeData.mk [[15, 15]] 2 1 (0, 0) (1, 0)) 1 = "E" :=
  ⟨path_validity.1 [[13, 7]] (0, 0) (1, 0) "E" (by decide) (by decide),
   path_validity.2.1 1 (by decide)⟩

/-- C4: edge cases of the solvers.  `Pathfinder.solve` returns the empty
path immediately when entry equals exit (before any search); the solver
the application writes files with, `solve_bfs`, returns `some ""` when
entry equals exit (the exit test fires on the first dequeue), returns
`none` only when the exit is truly unreachable through open passages, and
`none` is distinct from the empty-path value `some ""`.  (The `g ≠ []`
guard mirrors Python's `len(grid[0])`, which requires one row.) -/
theorem solver_edge_cases :
    (∀ (m : MazeData) (fuel : Nat), m.entry = m.exitPt →
      pathfinderSolve m fuel = "") ∧
    (∀ (g : Grid) (c : Cell), g ≠ [] → solve_bfs g c c = some "") ∧
    (∀ (g : Grid) (entry ex : Cell), solve_bfs g entry ex = none →
      ∀ l : List Char, ¬ ValidWalk g (gridW g) (gridH g) entry l ex) ∧
    (none : Option String) ≠ some "" := by
  refine ⟨?_, ?_, ?_, ?_⟩
  · intro m fuel hme
    unfold pathfinderSolve
    rw [if_pos hme]
  · intro g c hg
    rw [solve_bfs_eq]
    have h2 : solve_bfs_loop g (gridW g) (gridH g) c
        (2 * (gridW g * gridH g) + 2) [(c, "")] {c} = some (some "") :=
      solve_bfs_loop_exit_head g (gridW g) (gridH g) c
        (2 * (gridW g * gridH g) + 1) "" [] {c}
    rw [h2, Option.getD_some]
  · intro g entry ex hnone l hl
    have hinv := bfsInv_init g (gridW g) (gridH g) entry ex hl.start_box
    have hfuel : (solve_bfs_loop g (gridW g) (gridH g) ex
        (2 * (gridW g * gridH g) + 2) [(entry, "")] {entry}).isSome := by
      apply solve_bfs_loop_isSome
      have h1 : ((boxFinset (gridW g) (gridH g)) \ {entry}).card ≤
          gridW g * gridH g := by
        calc ((boxFinset (gridW g) (gridH g)) \ {entry}).card
            ≤ (boxFinset (gridW g) (gridH g)).card :=
              Finset.card_le_card Finset.sdiff_subset
          _ = gridW g * gridH g := card_boxFinset _ _
      have h2 : ([(entry, "")] : List (Cell × String)).length = 1 := rfl
      omega
    obtain ⟨r, hr⟩ := Option.isSome_iff_exists.mp hfuel
    cases r with
    | some p =>
      rw [solve_bfs_eq, hr, Option.getD_some] at hnone
      simp at hnone
    | none =>
      exact (solve_bfs_loop_spec g (gridW g) (gridH g) entry ex
        (2 * (gridW g * gridH g) + 2) [(entry, "")] {entry} hinv).2 hr l hl
  · intro hx
    simp at hx

/-- Witness for C4: entry-equals-exit on concrete mazes for both solvers,
and a concrete fully-walled maze where the exit is unreachable. -/
theorem solver_edge_cases_witness :
    pathfinderSolve (MazeData.mk [[15]] 1 1 (0, 0) (0, 0)) 5 = "" ∧
    solve_bfs [[15]] (0, 0) (0, 0) = some "" ∧
    ¬ ValidWalk [[15, 15]] (gridW [[15, 15]]) (gridH [[15, 15]])
      (0, 0) ['E'] (1, 0) :=
  ⟨solver_edge_cases.1 (MazeData.mk [[15]] 1 1 (0, 0) (0, 0)) 5 rfl,
   solver_edge_cases.2.1 [[15]] (0, 0) (by decide),
   solver_edge_cases.2.2.1 [[15, 15]] (0, 0) (1, 0) (by decide) ['E']⟩
